import Mathlib

/-!
Formal model of the service-deployment dependency tooling: topological sort
with cycle detection (two source variants), union-find grouping, the
transitive-dependency closure walk, deployment-plan resolution, and the
cluster bucketizer, together with correctness theorems about them.

Go maps are modelled as association lists (first binding wins on lookup);
Go's unspecified map iteration order is made explicit as the list order of
the association list, and every property proved below is insensitive to
that choice wherever the source's behaviour is.
-/

namespace ServiceTopo

/-- Dependency graph: association list from service name to its dependency
list, modelling Go's `map[string][]string`. -/
abbrev Graph := List (String × List String)

/-- Association-list lookup, modelling Go map indexing. -/
def lookupKey {α : Type} : List (String × α) → String → Option α
  | [], _ => none
  | e :: rest, k => if e.1 = k then some e.2 else lookupKey rest k

/-- Go `graph[node]`: a missing key yields the zero value, the empty slice. -/
def depsOf (g : Graph) (n : String) : List String := (lookupKey g n).getD []

/-- The adjacency-list keys, in declaration order. -/
def keysList (g : Graph) : List String := g.map Prod.fst

/-- Every name appearing in some dependency list, with repetitions. -/
def allDeps : Graph → List String
  | [] => []
  | e :: rest => e.2 ++ allDeps rest

/-- All graph nodes: adjacency-list keys together with every name appearing
in a dependency list. -/
def nodeList (g : Graph) : List String := (keysList g ++ allDeps g).dedup

/-- There is an edge `u -> v`, i.e. `u` depends on `v`. -/
def edgeB (g : Graph) (u v : String) : Bool := decide (v ∈ depsOf g u)

/-- Predicate `isPath g u l v`: a directed dependency path from `u` to `v` whose
intermediate nodes are exactly the list `l` (so it has `l.length + 1` edges). -/
def isPath (g : Graph) : String → List String → String → Bool
  | u, [], v => edgeB g u v
  | u, w :: ws, v => edgeB g u w && isPath g w ws v

/-! ## The iterative DFS of `topoSort`

Both source variants share the identical loop body; they differ only in how
the dependency list of a node is fetched from the graph value.  The loop is
therefore stated once, parametrised by that fetch function, and each source
file's `topoSort` instantiates it. -/

/-- One work-stack entry, Go's local `state` struct. -/
structure Frame where
  node : String
  expanded : Bool

/-- The mutable state of one `topoSort` run. -/
structure SortState where
  visited : List String
  onPath : List String
  result : List String

/-- Remove a name from a set, Go `onPath[x] = false` / `delete(set, x)`. -/
def setRemove (l : List String) (x : String) : List String :=
  l.filter (fun y => y ≠ x)

/-- Push the not-yet-visited dependencies onto the stack in order, so the
last dependency ends on top, exactly as Go's append loop does. -/
def pushDeps (visited : List String) : List String → List Frame → List Frame
  | [], stack => stack
  | d :: ds, stack =>
      pushDeps visited ds (if d ∈ visited then stack else ⟨d, false⟩ :: stack)

/-- Outcome of the work-stack loop. -/
inductive LoopRes where
  | finished (s : SortState)
  | cycleAt (n : String)
  | outOfFuel

/-- The inner work-stack loop of `topoSort`.  The fuel argument is only a
recursion bound; the bound passed by `sortCore` is proved never to be hit.
Go checks `onPath[top.node]` just after re-pushing the expanded frame, but
on that error path the stack is discarded, so raising the error before the
push is observationally identical. -/
def dfsLoop (deps : String → List String) : Nat → List Frame → SortState → LoopRes
  | 0, _, _ => .outOfFuel
  | _ + 1, [], s => .finished s
  | fuel + 1, ⟨n, exp⟩ :: stk, s =>
    if n ∈ s.visited then dfsLoop deps fuel stk s
    else if exp then
      dfsLoop deps fuel stk ⟨n :: s.visited, setRemove s.onPath n, s.result ++ [n]⟩
    else if n ∈ s.onPath then .cycleAt n
    else
      dfsLoop deps fuel (pushDeps s.visited (deps n) (⟨n, true⟩ :: stk))
        ⟨s.visited, n :: s.onPath, s.result⟩

/-- The outer loop of `topoSort` over the graph's keys. -/
def dfsAll (deps : String → List String) (fuel : Nat) : List String → SortState → LoopRes
  | [], s => .finished s
  | k :: ks, s =>
    if k ∈ s.visited then dfsAll deps fuel ks s
    else match dfsLoop deps fuel [⟨k, false⟩] s with
      | .finished s' => dfsAll deps fuel ks s'
      | .cycleAt n => .cycleAt n
      | .outOfFuel => .outOfFuel

/-- The cycle error message of both `topoSort` variants. -/
def cycleMsg (n : String) : String := "❌ cycle detected at service: " ++ n

/-- Recursion bound for the work-stack loop; ample, see `dfsLoop_fueled`. -/
def loopFuel (g : Graph) : Nat :=
  2 + (2 + (allDeps g).length) * (nodeList g).length

/-- The shared body of both `topoSort` variants. -/
def sortCore (deps : String → List String) (keys : List String) (fuel : Nat) :
    Except String (List String) :=
  match dfsAll deps fuel keys ⟨[], [], []⟩ with
  | .finished s => .ok s.result
  | .cycleAt n => .error (cycleMsg n)
  | .outOfFuel => .error "out of fuel"

/-- The `topoSort` of `topological-sort.go`, the `map[string][]string` variant. -/
def topoSort (g : Graph) : Except String (List String) :=
  sortCore (depsOf g) (keysList g) (loopFuel g)

/-- The `DependsOn` wrapper struct of `topological-sort/topological-sort.go`. -/
structure DependsOn where
  dependsOn : List String

/-- Dependency graph of the second variant, Go's `map[string]DependsOn`. -/
abbrev GraphD := List (String × DependsOn)

/-- Go `graph[node].DependsOn`: a missing key yields the zero-value struct,
whose `DependsOn` field is the empty slice. -/
def depsOfD (g : GraphD) (n : String) : List String :=
  ((lookupKey g n).getD ⟨[]⟩).dependsOn

/-- Keys of a `DependsOn`-wrapped graph. -/
def keysListD (g : GraphD) : List String := g.map Prod.fst

/-- All dependency names of a `DependsOn`-wrapped graph. -/
def allDepsD : GraphD → List String
  | [] => []
  | e :: rest => e.2.dependsOn ++ allDepsD rest

/-- All nodes of a `DependsOn`-wrapped graph. -/
def nodeListD (g : GraphD) : List String := (keysListD g ++ allDepsD g).dedup

/-- Recursion bound for the second variant. -/
def loopFuelD (g : GraphD) : Nat :=
  2 + (2 + (allDepsD g).length) * (nodeListD g).length

/-- The `topoSort` of `topological-sort/topological-sort.go`, the
`map[string]DependsOn` variant. -/
def topoSortD (g : GraphD) : Except String (List String) :=
  sortCore (depsOfD g) (keysListD g) (loopFuelD g)

/-- The `DependsOn`-wrapped counterpart of a plain adjacency list. -/
def wrapGraph (g : Graph) : GraphD := g.map (fun e => (e.1, ⟨e.2⟩))

example : topoSort [("a", ["b"]), ("b", [])] = .ok ["b", "a"] := rfl

example : topoSort [("a", ["a"])] = .error (cycleMsg "a") := rfl

example :
    topoSort [("A", ["B"]), ("B", ["C"]), ("C", [])] = .ok ["C", "B", "A"] := rfl

/-! ## Equivalence of the two `topoSort` variants -/

theorem keysListD_wrapGraph (g : Graph) : keysListD (wrapGraph g) = keysList g := by
  induction g with
  | nil => rfl
  | cons e rest ih => simp [wrapGraph, keysListD, keysList] at ih ⊢

theorem lookupKey_wrapGraph (g : Graph) (n : String) :
    lookupKey (wrapGraph g) n = (lookupKey g n).map (fun ds => ⟨ds⟩) := by
  induction g with
  | nil => rfl
  | cons e rest ih =>
      simp only [wrapGraph, List.map_cons, lookupKey] at ih ⊢
      split <;> simp [ih]

theorem depsOfD_wrapGraph (g : Graph) : depsOfD (wrapGraph g) = depsOf g := by
  funext n
  simp only [depsOfD, depsOf, lookupKey_wrapGraph]
  cases lookupKey g n <;> rfl

theorem allDepsD_wrapGraph (g : Graph) : allDepsD (wrapGraph g) = allDeps g := by
  induction g with
  | nil => rfl
  | cons e rest ih => simp [wrapGraph, allDepsD, allDeps] at ih ⊢; exact ih

theorem loopFuelD_wrapGraph (g : Graph) : loopFuelD (wrapGraph g) = loopFuel g := by
  simp [loopFuelD, loopFuel, nodeListD, nodeList, allDepsD_wrapGraph, keysListD_wrapGraph]

/-- C10: the two `topoSort` implementations (over `map[string][]string` and
over `map[string]DependsOn`) are equivalent: on a graph and its
`DependsOn`-wrapped counterpart they return the same ordering on success and
agree on whether, and at which node, a cycle error is reported. -/
theorem c10_topoSort_variants_equivalent (g : Graph) :
    topoSortD (wrapGraph g) = topoSort g := by
  unfold topoSortD topoSort
  rw [keysListD_wrapGraph, depsOfD_wrapGraph, loopFuelD_wrapGraph]

/-! ## Basic facts about the graph accessors -/

theorem mem_setRemove {l : List String} {x y : String} :
    y ∈ setRemove l x ↔ y ∈ l ∧ y ≠ x := by
  simp [setRemove]

theorem depsOf_subset_allDeps (g : Graph) (n : String) :
    ∀ x ∈ depsOf g n, x ∈ allDeps g := by
  induction g with
  | nil => simp [depsOf, lookupKey]
  | cons e rest ih =>
      intro x hx
      simp only [depsOf, lookupKey] at hx
      simp only [allDeps, List.mem_append]
      by_cases he : e.1 = n
      · simp [he] at hx; exact Or.inl hx
      · simp [he] at hx; exact Or.inr (ih x hx)

theorem depsOf_length_le (g : Graph) (n : String) :
    (depsOf g n).length ≤ (allDeps g).length := by
  induction g with
  | nil => simp [depsOf, lookupKey]
  | cons e rest ih =>
      simp only [depsOf, lookupKey] at ih ⊢
      simp only [allDeps, List.length_append]
      by_cases he : e.1 = n
      · simp [he]
      · simp only [he, if_false]; omega

theorem key_mem_nodeList {g : Graph} {n : String} (h : n ∈ keysList g) :
    n ∈ nodeList g := by
  simp [nodeList, List.mem_dedup, List.mem_append]
  exact Or.inl h

theorem dep_mem_nodeList {g : Graph} {x : String} (h : x ∈ allDeps g) :
    x ∈ nodeList g := by
  simp [nodeList, List.mem_dedup, List.mem_append]
  exact Or.inr h

theorem depsOf_mem_nodeList {g : Graph} {n x : String} (h : x ∈ depsOf g n) :
    x ∈ nodeList g :=
  dep_mem_nodeList (depsOf_subset_allDeps g n x h)

theorem depsOf_ne_nil_mem_keys {g : Graph} {n : String} (h : depsOf g n ≠ []) :
    n ∈ keysList g := by
  induction g with
  | nil => simp [depsOf, lookupKey] at h
  | cons e rest ih =>
      simp only [depsOf, lookupKey] at h
      simp only [keysList, List.map_cons, List.mem_cons]
      by_cases he : e.1 = n
      · exact Or.inl he.symm
      · simp only [he, if_false] at h
        exact Or.inr (ih h)

/-! ## `pushDeps` structure -/

theorem pushDeps_spec (vis : List String) :
    ∀ (ds : List String) (stack : List Frame), ∃ fs : List Frame,
      pushDeps vis ds stack = fs ++ stack ∧
      fs.length ≤ ds.length ∧
      (∀ f ∈ fs, f.expanded = false ∧ f.node ∈ ds ∧ f.node ∉ vis) ∧
      (∀ d ∈ ds, d ∉ vis → ∃ f ∈ fs, f.node = d) := by
  intro ds
  induction ds with
  | nil =>
      intro stack
      exact ⟨[], rfl, by simp, by simp, by simp⟩
  | cons d ds ih =>
      intro stack
      by_cases hd : d ∈ vis
      · obtain ⟨fs, heq, hlen, hmem, hcompl⟩ := ih stack
        refine ⟨fs, ?_, by simp only [List.length_cons]; omega, ?_, ?_⟩
        · simp only [pushDeps, if_pos hd]; exact heq
        · intro f hf
          obtain ⟨h1, h2, h3⟩ := hmem f hf
          exact ⟨h1, List.mem_cons_of_mem _ h2, h3⟩
        · intro d' hd' hnv
          rcases List.mem_cons.mp hd' with rfl | hmem'
          · exact absurd hd hnv
          · exact hcompl d' hmem' hnv
      · obtain ⟨fs, heq, hlen, hmem, hcompl⟩ := ih (⟨d, false⟩ :: stack)
        refine ⟨fs ++ [⟨d, false⟩], ?_, ?_, ?_, ?_⟩
        · simp only [pushDeps, if_neg hd]
          rw [heq, List.append_assoc, List.singleton_append]
        · simp only [List.length_append, List.length_singleton, List.length_cons,
            List.length_nil]
          omega
        · intro f hf
          rcases List.mem_append.mp hf with hf | hf
          · obtain ⟨h1, h2, h3⟩ := hmem f hf
            exact ⟨h1, List.mem_cons_of_mem _ h2, h3⟩
          · rcases List.mem_singleton.mp hf with rfl
            exact ⟨rfl, List.mem_cons_self _ _, hd⟩
        · intro d' hd' hnv
          rcases List.mem_cons.mp hd' with rfl | hmem'
          · exact ⟨⟨d', false⟩, by simp, rfl⟩
          · obtain ⟨f, hf, hfn⟩ := hcompl d' hmem' hnv
            exact ⟨f, List.mem_append_left _ hf, hfn⟩

/-! ## The fuel bound is never hit -/

/-- Nodes not yet coloured (neither visited nor in-progress). -/
def missing (g : Graph) (s : SortState) : Nat :=
  ((nodeList g).filter
    (fun x => decide (x ∉ s.visited) && decide (x ∉ s.onPath))).length

theorem length_filter_mono {l : List String} {p q : String → Bool}
    (h : ∀ x ∈ l, p x = true → q x = true) :
    (l.filter p).length ≤ (l.filter q).length := by
  induction l with
  | nil => simp
  | cons x xs ih =>
      have ihs := ih (fun y hy => h y (List.mem_cons_of_mem _ hy))
      cases hpx : p x with
      | true =>
          have hqx := h x (List.mem_cons_self _ _) hpx
          simp [List.filter_cons, hpx, hqx]
          omega
      | false =>
          simp only [List.filter_cons, hpx]
          cases hqx : q x <;> simp <;> omega

theorem length_filter_strict {l : List String} {p q : String → Bool} {n : String}
    (hn : n ∈ l) (hq : q n = true) (hp : p n = false)
    (h : ∀ x ∈ l, p x = true → q x = true) :
    (l.filter p).length < (l.filter q).length := by
  induction l with
  | nil => simp at hn
  | cons x xs ih =>
      have hmono := length_filter_mono
        (fun y hy => h y (List.mem_cons_of_mem _ hy)) (p := p) (q := q)
      rcases List.mem_cons.mp hn with rfl | hn'
      · simp [List.filter_cons, hp, hq]
        omega
      · have ihs := ih hn' (fun y hy => h y (List.mem_cons_of_mem _ hy))
        cases hpx : p x with
        | true =>
            have hqx := h x (List.mem_cons_self _ _) hpx
            simp [List.filter_cons, hpx, hqx]
            omega
        | false =>
            simp only [List.filter_cons, hpx]
            cases hqx : q x <;> simp <;> omega

theorem missing_le (g : Graph) (s : SortState) :
    missing g s ≤ (nodeList g).length :=
  List.length_filter_le _ _

theorem dfsLoop_fueled (g : Graph) : ∀ (fuel : Nat) (stack : List Frame) (s : SortState),
    (∀ f ∈ stack, f.node ∈ nodeList g) →
    1 + stack.length + (2 + (allDeps g).length) * missing g s ≤ fuel →
    dfsLoop (depsOf g) fuel stack s ≠ .outOfFuel := by
  intro fuel
  induction fuel with
  | zero => intro stack s _ hle; omega
  | succ fuel ih =>
      intro stack s hstack hle
      match stack with
      | [] => simp [dfsLoop]
      | ⟨n, exp⟩ :: stk =>
        have hn : n ∈ nodeList g := (hstack ⟨n, exp⟩ (List.mem_cons_self _ _))
        have hstk : ∀ f ∈ stk, f.node ∈ nodeList g :=
          fun f hf => hstack f (List.mem_cons_of_mem _ hf)
        simp only [dfsLoop]
        by_cases hv : n ∈ s.visited
        · simp only [if_pos hv]
          apply ih stk s hstk
          simp only [List.length_cons] at hle
          omega
        · simp only [if_neg hv]
          by_cases hexp : exp
          · simp only [if_pos hexp]
            apply ih stk _ hstk
            have hmono : missing g ⟨n :: s.visited, setRemove s.onPath n, s.result ++ [n]⟩
                ≤ missing g s := by
              apply length_filter_mono
              intro x _ hx
              simp only [Bool.and_eq_true, decide_eq_true_eq, List.mem_cons,
                mem_setRemove] at hx ⊢
              constructor
              · intro h1; exact hx.1 (Or.inr h1)
              · intro h2
                by_cases hxn : x = n
                · exact hx.1 (Or.inl hxn)
                · exact hx.2 ⟨h2, hxn⟩
            have := Nat.mul_le_mul_left (2 + (allDeps g).length) hmono
            simp only [List.length_cons] at hle
            omega
          · simp only [if_neg hexp]
            by_cases hop : n ∈ s.onPath
            · simp only [if_pos hop]
              intro h; exact LoopRes.noConfusion h
            · simp only [if_neg hop]
              obtain ⟨fs, heq, hlen, hmem, _⟩ :=
                pushDeps_spec s.visited (depsOf g n) (⟨n, true⟩ :: stk)
              rw [heq]
              set s' : SortState := ⟨s.visited, n :: s.onPath, s.result⟩ with hs'
              have hms : missing g s' < missing g s := by
                apply length_filter_strict (n := n) hn
                · simp [hv, hop]
                · simp [hs']
                · intro x _ hx
                  simp only [hs', Bool.and_eq_true, decide_eq_true_eq,
                    List.mem_cons] at hx ⊢
                  exact ⟨hx.1, fun h2 => hx.2 (Or.inr h2)⟩
              apply ih _ s'
              · intro f hf
                rcases List.mem_append.mp hf with hf | hf
                · exact depsOf_mem_nodeList ((hmem f hf).2.1)
                · rcases List.mem_cons.mp hf with rfl | hf
                  · exact hn
                  · exact hstk f hf
              · have hlen2 : (fs ++ ⟨n, true⟩ :: stk).length
                    ≤ (allDeps g).length + 1 + stk.length := by
                  simp only [List.length_append, List.length_cons]
                  have := depsOf_length_le g n
                  omega
                have hmul : (2 + (allDeps g).length) * missing g s'
                    + (2 + (allDeps g).length) ≤ (2 + (allDeps g).length) * missing g s := by
                  have : missing g s' + 1 ≤ missing g s := hms
                  calc (2 + (allDeps g).length) * missing g s' + (2 + (allDeps g).length)
                      = (2 + (allDeps g).length) * (missing g s' + 1) := by ring
                    _ ≤ (2 + (allDeps g).length) * missing g s :=
                        Nat.mul_le_mul_left _ this
                simp only [List.length_cons] at hle
                omega

theorem dfsAll_fueled (g : Graph) : ∀ (ks : List String) (s : SortState),
    (∀ k ∈ ks, k ∈ nodeList g) →
    dfsAll (depsOf g) (loopFuel g) ks s ≠ .outOfFuel := by
  intro ks
  induction ks with
  | nil => intro s _; simp [dfsAll]
  | cons k ks ih =>
      intro s hks
      simp only [dfsAll]
      by_cases hv : k ∈ s.visited
      · simp only [if_pos hv]
        exact ih s (fun k' hk' => hks k' (List.mem_cons_of_mem _ hk'))
      · simp only [if_neg hv]
        have hinner : dfsLoop (depsOf g) (loopFuel g) [⟨k, false⟩] s ≠ .outOfFuel := by
          apply dfsLoop_fueled
          · intro f hf
            rcases List.mem_singleton.mp hf with rfl
            exact hks k (List.mem_cons_self _ _)
          · have h1 := missing_le g s
            have h2 : (2 + (allDeps g).length) * missing g s
                ≤ (2 + (allDeps g).length) * (nodeList g).length :=
              Nat.mul_le_mul_left _ h1
            simp only [loopFuel, List.length_singleton]
            omega
        cases hcase : dfsLoop (depsOf g) (loopFuel g) [⟨k, false⟩] s with
        | finished s' =>
            exact ih s' (fun k' hk' => hks k' (List.mem_cons_of_mem _ hk'))
        | cycleAt n => intro h; exact LoopRes.noConfusion h
        | outOfFuel => exact absurd hcase hinner

theorem topoSort_fueled (g : Graph) :
    dfsAll (depsOf g) (loopFuel g) (keysList g) ⟨[], [], []⟩ ≠ .outOfFuel :=
  dfsAll_fueled g (keysList g) ⟨[], [], []⟩ (fun _ hk => key_mem_nodeList hk)

/-! ## The stack-shape invariant of the work-stack loop

At any point of an error-free run the stack decomposes into segments of
unexpanded dependency frames separated by the expanded frames of the
current DFS spine (the nodes marked in-progress), listed topmost first in
`path`.  `above` records the spine nodes enclosing the described portion;
at the top level it is empty. -/

inductive Shape (g : Graph) (visited : List String) :
    List String → List Frame → List String → Prop
  | base (above : List String) (fs : List Frame)
      (hfs : ∀ f ∈ fs, f.expanded = false) :
      Shape g visited above fs []
  | seg (above : List String) (p : String) (fs rest : List Frame) (path : List String)
      (hfs : ∀ f ∈ fs, f.expanded = false ∧ f.node ∈ depsOf g p)
      (hdeps : ∀ d ∈ depsOf g p,
        d ∈ visited ∨ (∃ f ∈ fs, f.node = d) ∨ d ∈ above)
      (hlink : ∀ q, path.head? = some q → p ∈ depsOf g q)
      (hrest : Shape g visited (p :: above) rest path) :
      Shape g visited above (fs ++ ⟨p, true⟩ :: rest) (p :: path)

theorem shape_weaken {g : Graph} {vis ab st path} (h : Shape g vis ab st path) :
    ∀ {vis' ab'}, (∀ x ∈ vis, x ∈ vis') → (∀ x ∈ ab, x ∈ vis' ∨ x ∈ ab') →
    Shape g vis' ab' st path := by
  induction h with
  | base ab fs hfs => intro vis' ab' _ _; exact Shape.base ab' fs hfs
  | seg ab p fs rest path hfs hdeps hlink _ ih =>
      intro vis' ab' hv hab
      refine Shape.seg ab' p fs rest path hfs ?_ hlink ?_
      · intro d hd
        rcases hdeps d hd with h1 | h2 | h3
        · exact Or.inl (hv d h1)
        · exact Or.inr (Or.inl h2)
        · rcases hab d h3 with h4 | h4
          · exact Or.inl h4
          · exact Or.inr (Or.inr h4)
      · refine ih hv ?_
        intro x hx
        rcases List.mem_cons.mp hx with rfl | hx'
        · exact Or.inr (List.mem_cons_self _ _)
        · rcases hab x hx' with h4 | h4
          · exact Or.inl h4
          · exact Or.inr (List.mem_cons_of_mem _ h4)

theorem shape_nil_path {g : Graph} {vis ab st} (h : Shape g vis ab st []) :
    ∀ f ∈ st, f.expanded = false := by
  cases h with
  | base _ _ hfs => exact hfs

theorem shape_cons_path {g : Graph} {vis ab st p path}
    (h : Shape g vis ab st (p :: path)) :
    ∃ fs rest, st = fs ++ ⟨p, true⟩ :: rest ∧
      (∀ f ∈ fs, f.expanded = false ∧ f.node ∈ depsOf g p) ∧
      (∀ d ∈ depsOf g p, d ∈ vis ∨ (∃ f ∈ fs, f.node = d) ∨ d ∈ ab) ∧
      (∀ q, path.head? = some q → p ∈ depsOf g q) ∧
      Shape g vis (p :: ab) rest path := by
  cases h with
  | seg _ _ fs rest _ hfs hdeps hlink hrest =>
      exact ⟨fs, rest, rfl, hfs, hdeps, hlink, hrest⟩

theorem shape_empty_stack {g : Graph} {vis ab path}
    (h : Shape g vis ab [] path) : path = [] := by
  cases path with
  | nil => rfl
  | cons p path =>
      obtain ⟨fs, rest, heq, -, -, -, -⟩ := shape_cons_path h
      exact absurd heq.symm (by simp)

/-- The spine read bottom-up is a chain of dependency edges. -/
def upChain (g : Graph) : List String → Prop
  | [] => True
  | [_] => True
  | a :: b :: rest => a ∈ depsOf g b ∧ upChain g (b :: rest)

theorem shape_upChain {g : Graph} {vis ab st path}
    (h : Shape g vis ab st path) : upChain g path := by
  induction h with
  | base => trivial
  | seg ab p fs rest path _ _ hlink _ ih =>
      cases path with
      | nil => trivial
      | cons q path' =>
          exact ⟨hlink q rfl, ih⟩

theorem isPath_append_edge {g : Graph} {u v w : String} :
    ∀ {l : List String}, isPath g u l v = true → edgeB g v w = true →
    isPath g u (l ++ [v]) w = true := by
  intro l
  induction l generalizing u with
  | nil =>
      intro h1 h2
      simp only [isPath, List.nil_append, Bool.and_eq_true]
      exact ⟨h1, h2⟩
  | cons x xs ih =>
      intro h1 h2
      simp only [isPath, Bool.and_eq_true] at h1
      simp only [List.cons_append, isPath, Bool.and_eq_true]
      exact ⟨h1.1, ih h1.2 h2⟩

theorem upChain_climb {g : Graph} :
    ∀ {path : List String}, upChain g path → ∀ {n}, n ∈ path →
    ∀ {p}, path.head? = some p → n = p ∨ ∃ l, isPath g n l p = true := by
  intro path
  induction path with
  | nil => intro _ n hn; simp at hn
  | cons a rest ih =>
      intro hchain n hn p hp
      simp only [List.head?_cons, Option.some_inj] at hp
      subst hp
      rcases List.mem_cons.mp hn with rfl | hn'
      · exact Or.inl rfl
      · cases rest with
        | nil => simp at hn'
        | cons b rest' =>
            obtain ⟨hedge, hchain'⟩ := hchain
            rcases ih hchain' hn' (p := b) rfl with rfl | ⟨l, hl⟩
            · refine Or.inr ⟨[], ?_⟩
              simp only [isPath, edgeB, decide_eq_true_eq]
              exact hedge
            · refine Or.inr ⟨l ++ [b], ?_⟩
              exact isPath_append_edge hl (by simp [edgeB, hedge])

/-- From the shape invariant, popping an unexpanded frame whose node is
already marked in-progress exhibits a genuine dependency cycle through it. -/
theorem shape_cycle {g : Graph} {vis n stk path} {exp : Bool}
    (h : Shape g vis [] (⟨n, exp⟩ :: stk) path) (hexp : exp = false)
    (hn : n ∈ path) : ∃ c, isPath g n c n = true := by
  cases path with
  | nil => simp at hn
  | cons p path' =>
      obtain ⟨fs, rest, heq, hfs, -, -, -⟩ := shape_cons_path h
      have hnp : n ∈ depsOf g p := by
        cases fs with
        | nil =>
            simp only [List.nil_append, List.cons.injEq] at heq
            have : Frame.mk n exp = Frame.mk p true := heq.1
            rw [Frame.mk.injEq] at this
            rw [this.2] at hexp
            exact absurd hexp (by simp)
        | cons f fs' =>
            simp only [List.cons_append, List.cons.injEq] at heq
            have := (hfs f (List.mem_cons_self _ _)).2
            rw [← heq.1] at this
            exact this
      have hedge : edgeB g p n = true := by simp [edgeB, hnp]
      rcases upChain_climb (shape_upChain h) hn (p := p) rfl with rfl | ⟨l, hl⟩
      · exact ⟨[], hedge⟩
      · exact ⟨l ++ [p], isPath_append_edge hl hedge⟩

/-! ## The full loop invariant -/

/-- Everything that holds of the loop state throughout a `topoSort` run. -/
structure LoopInv (g : Graph) (stack : List Frame) (s : SortState)
    (path : List String) : Prop where
  frames : ∀ f ∈ stack, f.node ∈ nodeList g
  vis_sub : ∀ x ∈ s.visited, x ∈ nodeList g
  res_iff : ∀ x, x ∈ s.result ↔ x ∈ s.visited
  res_nodup : s.result.Nodup
  vis_closed : ∀ u ∈ s.visited, ∀ v ∈ depsOf g u, v ∈ s.visited
  res_order : ∀ u v, u ∈ s.result → v ∈ depsOf g u →
      s.result.indexOf v < s.result.indexOf u
  shape : Shape g s.visited [] stack path
  onpath_iff : ∀ x, x ∈ s.onPath ↔ x ∈ path
  path_nodup : path.Nodup
  path_not_vis : ∀ x ∈ path, x ∉ s.visited

theorem loopInv_skip {g : Graph} {n : String} {exp : Bool} {stk s path}
    (h : LoopInv g (⟨n, exp⟩ :: stk) s path) (hv : n ∈ s.visited) :
    LoopInv g stk s path := by
  refine ⟨fun f hf => h.frames f (List.mem_cons_of_mem _ hf), h.vis_sub,
    h.res_iff, h.res_nodup, h.vis_closed, h.res_order, ?_, h.onpath_iff,
    h.path_nodup, h.path_not_vis⟩
  cases path with
  | nil =>
      exact Shape.base _ _ (fun f hf =>
        shape_nil_path h.shape f (List.mem_cons_of_mem _ hf))
  | cons p path' =>
      obtain ⟨fs, rest, heq, hfs, hdeps, hlink, hrest⟩ := shape_cons_path h.shape
      cases fs with
      | nil =>
          simp only [List.nil_append, List.cons.injEq] at heq
          have hpn : p = n := by
            have := heq.1
            rw [Frame.mk.injEq] at this
            exact this.1.symm
          exact absurd hv (by rw [← hpn]; exact h.path_not_vis p (List.mem_cons_self _ _))
      | cons f fs' =>
          simp only [List.cons_append, List.cons.injEq] at heq
          have hfn : f.node = n := by rw [← heq.1]
          rw [heq.2]
          refine Shape.seg _ p fs' rest path'
            (fun f' hf' => hfs f' (List.mem_cons_of_mem _ hf')) ?_ hlink hrest
          intro d hd
          rcases hdeps d hd with h1 | ⟨f', hf', hfd⟩ | h3
          · exact Or.inl h1
          · rcases List.mem_cons.mp hf' with rfl | hf''
            · rw [hfn] at hfd; exact Or.inl (hfd ▸ hv)
            · exact Or.inr (Or.inl ⟨f', hf'', hfd⟩)
          · exact Or.inr (Or.inr h3)

theorem loopInv_expanded {g : Graph} {n : String} {stk s path}
    (h : LoopInv g (⟨n, true⟩ :: stk) s path) (hv : n ∉ s.visited) :
    ∃ path', path = n :: path' ∧
      LoopInv g stk ⟨n :: s.visited, setRemove s.onPath n, s.result ++ [n]⟩ path' := by
  cases path with
  | nil =>
      have := shape_nil_path h.shape ⟨n, true⟩ (List.mem_cons_self _ _)
      simp at this
  | cons p path' =>
      obtain ⟨fs, rest, heq, hfs, hdeps, hlink, hrest⟩ := shape_cons_path h.shape
      have hfs0 : fs = [] := by
        cases fs with
        | nil => rfl
        | cons f fs' =>
            simp only [List.cons_append, List.cons.injEq] at heq
            have h1 := (hfs f (List.mem_cons_self _ _)).1
            rw [← heq.1] at h1
            simp at h1
      subst hfs0
      simp only [List.nil_append, List.cons.injEq] at heq
      have hpn : p = n := by
        have := heq.1; rw [Frame.mk.injEq] at this; exact this.1.symm
      subst hpn
      have hstk : stk = rest := heq.2
      subst hstk
      have hdeps' : ∀ d ∈ depsOf g p, d ∈ s.visited := by
        intro d hd
        rcases hdeps d hd with h1 | ⟨f, hf, -⟩ | h3
        · exact h1
        · simp at hf
        · simp at h3
      have hnres : p ∉ s.result := fun hc => hv ((h.res_iff p).mp hc)
      have hnpath : p ∉ path' := by
        have := h.path_nodup
        rw [List.nodup_cons] at this
        exact this.1
      refine ⟨path', rfl, ?_, ?_, ?_, ?_, ?_, ?_, ?_, ?_, ?_, ?_⟩
      · exact fun f hf => h.frames f (List.mem_cons_of_mem _ hf)
      · intro x hx
        rcases List.mem_cons.mp hx with rfl | hx'
        · exact h.frames ⟨x, true⟩ (List.mem_cons_self _ _)
        · exact h.vis_sub x hx'
      · intro x
        simp only [List.mem_append, List.mem_singleton, List.mem_cons]
        rw [h.res_iff x]
        tauto
      · simp only [List.nodup_append, List.nodup_singleton]
        exact ⟨h.res_nodup, trivial, by
          intro a ha hb
          rcases List.mem_singleton.mp hb with rfl
          exact hnres ha⟩
      · intro u hu v hv'
        rcases List.mem_cons.mp hu with rfl | hu'
        · exact List.mem_cons_of_mem _ (hdeps' v hv')
        · exact List.mem_cons_of_mem _ (h.vis_closed u hu' v hv')
      · intro u v hu hv'
        rcases List.mem_append.mp hu with hu' | hu'
        · have hvres : v ∈ s.result :=
            (h.res_iff v).mpr (h.vis_closed u ((h.res_iff u).mp hu') v hv')
          rw [List.indexOf_append_of_mem hu', List.indexOf_append_of_mem hvres]
          exact h.res_order u v hu' hv'
        · rcases List.mem_singleton.mp hu' with rfl
          have hvres : v ∈ s.result := (h.res_iff v).mpr (hdeps' v hv')
          rw [List.indexOf_append_of_mem hvres,
            List.indexOf_append_of_not_mem hnres]
          simp only [List.indexOf_cons_self, Nat.add_zero]
          exact List.indexOf_lt_length.mpr hvres
      · refine shape_weaken hrest (fun x hx => List.mem_cons_of_mem _ hx) ?_
        intro x hx
        rcases List.mem_singleton.mp hx with rfl
        exact Or.inl (List.mem_cons_self _ _)
      · intro x
        rw [mem_setRemove, h.onpath_iff x, List.mem_cons]
        constructor
        · rintro ⟨rfl | hx, hne⟩
          · exact absurd rfl hne
          · exact hx
        · intro hx
          refine ⟨Or.inr hx, ?_⟩
          rintro rfl
          exact hnpath hx
      · exact (List.nodup_cons.mp h.path_nodup).2
      · intro x hx hmem
        rcases List.mem_cons.mp hmem with rfl | hvx
        · exact hnpath hx
        · exact h.path_not_vis x (List.mem_cons_of_mem _ hx) hvx

theorem loopInv_expand {g : Graph} {n : String} {stk s path}
    (h : LoopInv g (⟨n, false⟩ :: stk) s path) (hv : n ∉ s.visited)
    (hop : n ∉ s.onPath) :
    LoopInv g (pushDeps s.visited (depsOf g n) (⟨n, true⟩ :: stk))
      ⟨s.visited, n :: s.onPath, s.result⟩ (n :: path) := by
  obtain ⟨fs, heq, hlen, hmem, hcompl⟩ :=
    pushDeps_spec s.visited (depsOf g n) (⟨n, true⟩ :: stk)
  have hnpath : n ∉ path := fun hc => hop ((h.onpath_iff n).mpr hc)
  have hframes : ∀ f ∈ pushDeps s.visited (depsOf g n) (⟨n, true⟩ :: stk),
      f.node ∈ nodeList g := by
    rw [heq]
    intro f hf
    rcases List.mem_append.mp hf with hf' | hf'
    · exact depsOf_mem_nodeList (hmem f hf').2.1
    · rcases List.mem_cons.mp hf' with rfl | hf''
      · exact h.frames ⟨n, false⟩ (by simp)
      · exact h.frames f (List.mem_cons_of_mem _ hf'')
  have hshape : Shape g s.visited []
      (pushDeps s.visited (depsOf g n) (⟨n, true⟩ :: stk)) (n :: path) := by
    rw [heq]
    cases path with
    | nil =>
        refine Shape.seg [] n fs stk []
          (fun f hf => ⟨(hmem f hf).1, (hmem f hf).2.1⟩) ?_ (by simp) ?_
        · intro d hd
          by_cases hdv : d ∈ s.visited
          · exact Or.inl hdv
          · obtain ⟨f, hf, hfd⟩ := hcompl d hd hdv
            exact Or.inr (Or.inl ⟨f, hf, hfd⟩)
        · exact Shape.base _ _ (fun f hf =>
            shape_nil_path h.shape f (List.mem_cons_of_mem _ hf))
    | cons p path' =>
        obtain ⟨fs0, rest, heq0, hfs0, hdeps0, hlink0, hrest0⟩ :=
          shape_cons_path h.shape
        cases fs0 with
        | nil =>
            simp only [List.nil_append, List.cons.injEq] at heq0
            have := heq0.1
            rw [Frame.mk.injEq] at this
            exact absurd this.2 (by simp)
        | cons f0 fs0' =>
            simp only [List.cons_append, List.cons.injEq] at heq0
            have hf0n : f0.node = n := by rw [← heq0.1]
            have hstk0 : stk = fs0' ++ ⟨p, true⟩ :: rest := heq0.2
            have hnp : n ∈ depsOf g p := by
              have := (hfs0 f0 (List.mem_cons_self _ _)).2
              rw [hf0n] at this
              exact this
            rw [hstk0]
            refine Shape.seg [] n fs (fs0' ++ ⟨p, true⟩ :: rest) (p :: path')
              (fun f hf => ⟨(hmem f hf).1, (hmem f hf).2.1⟩) ?_ ?_ ?_
            · intro d hd
              by_cases hdv : d ∈ s.visited
              · exact Or.inl hdv
              · obtain ⟨f, hf, hfd⟩ := hcompl d hd hdv
                exact Or.inr (Or.inl ⟨f, hf, hfd⟩)
            · intro q hq
              simp only [List.head?_cons, Option.some_inj] at hq
              subst hq
              exact hnp
            · refine Shape.seg [n] p fs0' rest path'
                (fun f hf => hfs0 f (List.mem_cons_of_mem _ hf)) ?_ hlink0 ?_
              · intro d hd
                rcases hdeps0 d hd with h1 | ⟨f', hf', hfd⟩ | h3
                · exact Or.inl h1
                · rcases List.mem_cons.mp hf' with rfl | hf''
                  · rw [hf0n] at hfd
                    exact Or.inr (Or.inr (by simp [hfd]))
                  · exact Or.inr (Or.inl ⟨f', hf'', hfd⟩)
                · simp at h3
              · refine shape_weaken hrest0 (fun x hx => hx) ?_
                intro x hx
                rcases List.mem_cons.mp hx with rfl | hx'
                · exact Or.inr (by simp)
                · simp at hx'
  refine ⟨hframes, h.vis_sub, h.res_iff, h.res_nodup, h.vis_closed,
    h.res_order, hshape, ?_, ?_, ?_⟩
  · intro x
    simp only [List.mem_cons]
    rw [h.onpath_iff x]
  · exact List.nodup_cons.mpr ⟨hnpath, h.path_nodup⟩
  · intro x hx
    rcases List.mem_cons.mp hx with rfl | hx'
    · exact hv
    · exact h.path_not_vis x hx'

theorem dfsLoop_main (g : Graph) : ∀ (fuel : Nat) (stack : List Frame)
    (s : SortState) (path : List String), LoopInv g stack s path →
    (∀ s', dfsLoop (depsOf g) fuel stack s = .finished s' →
      LoopInv g [] s' [] ∧ (∀ x ∈ s.visited, x ∈ s'.visited) ∧
      (∀ f ∈ stack, f.node ∈ s'.visited)) ∧
    (∀ n, dfsLoop (depsOf g) fuel stack s = .cycleAt n →
      ∃ c, isPath g n c n = true) := by
  intro fuel
  induction fuel with
  | zero =>
      intro stack s path _
      constructor
      · intro s' h'; exact absurd h' (by simp [dfsLoop])
      · intro n h'; exact absurd h' (by simp [dfsLoop])
  | succ fuel ih =>
      intro stack s path hinv
      match stack with
      | [] =>
          have hpath : path = [] := shape_empty_stack hinv.shape
          subst hpath
          constructor
          · intro s' h'
            simp only [dfsLoop] at h'
            cases h'
            exact ⟨hinv, fun x hx => hx, by simp⟩
          · intro n h'
            simp only [dfsLoop] at h'
            exact absurd h' (by simp)
      | ⟨n, exp⟩ :: stk =>
          by_cases hv : n ∈ s.visited
          · have hstep : dfsLoop (depsOf g) (fuel + 1) (⟨n, exp⟩ :: stk) s
                = dfsLoop (depsOf g) fuel stk s := by
              simp only [dfsLoop, if_pos hv]
            rw [hstep]
            obtain ⟨hfin, hcyc⟩ := ih stk s path (loopInv_skip hinv hv)
            refine ⟨?_, hcyc⟩
            intro s' h'
            obtain ⟨hinv', hmono, hstk⟩ := hfin s' h'
            refine ⟨hinv', hmono, ?_⟩
            intro f hf
            rcases List.mem_cons.mp hf with rfl | hf'
            · exact hmono _ hv
            · exact hstk f hf'
          · by_cases hexp : exp = true
            · subst hexp
              obtain ⟨path', rfl, hinv1⟩ := loopInv_expanded hinv hv
              have hstep : dfsLoop (depsOf g) (fuel + 1) (⟨n, true⟩ :: stk) s
                  = dfsLoop (depsOf g) fuel stk
                    ⟨n :: s.visited, setRemove s.onPath n, s.result ++ [n]⟩ := by
                simp [dfsLoop, hv]
              rw [hstep]
              obtain ⟨hfin, hcyc⟩ := ih stk _ path' hinv1
              refine ⟨?_, hcyc⟩
              intro s' h'
              obtain ⟨hinv', hmono, hstk⟩ := hfin s' h'
              refine ⟨hinv', ?_, ?_⟩
              · intro x hx
                exact hmono x (List.mem_cons_of_mem _ hx)
              · intro f hf
                rcases List.mem_cons.mp hf with rfl | hf'
                · exact hmono _ (List.mem_cons_self _ _)
                · exact hstk f hf'
            · rw [Bool.not_eq_true] at hexp
              subst hexp
              by_cases hop : n ∈ s.onPath
              · have hstep : dfsLoop (depsOf g) (fuel + 1) (⟨n, false⟩ :: stk) s
                    = .cycleAt n := by
                  simp only [dfsLoop, if_neg hv, if_pos hop]
                  simp
                rw [hstep]
                constructor
                · intro s' h'; exact absurd h' (by simp)
                · intro m h'
                  have hmn : m = n := by
                    have : LoopRes.cycleAt n = LoopRes.cycleAt m := h'
                    cases this; rfl
                  subst hmn
                  exact shape_cycle hinv.shape rfl ((hinv.onpath_iff m).mp hop)
              · have hstep : dfsLoop (depsOf g) (fuel + 1) (⟨n, false⟩ :: stk) s
                    = dfsLoop (depsOf g) fuel
                      (pushDeps s.visited (depsOf g n) (⟨n, true⟩ :: stk))
                      ⟨s.visited, n :: s.onPath, s.result⟩ := by
                  simp only [dfsLoop, if_neg hv, if_neg hop]
                  simp
                rw [hstep]
                obtain ⟨hfin, hcyc⟩ := ih _ _ _ (loopInv_expand hinv hv hop)
                refine ⟨?_, hcyc⟩
                intro s' h'
                obtain ⟨hinv', hmono, hstk⟩ := hfin s' h'
                obtain ⟨fs, heq, -, -, -⟩ :=
                  pushDeps_spec s.visited (depsOf g n) (⟨n, true⟩ :: stk)
                refine ⟨hinv', hmono, ?_⟩
                intro f hf
                rcases List.mem_cons.mp hf with rfl | hf'
                · have : (⟨n, true⟩ : Frame)
                      ∈ pushDeps s.visited (depsOf g n) (⟨n, true⟩ :: stk) := by
                    rw [heq]; simp
                  exact hstk ⟨n, true⟩ this
                · have : f ∈ pushDeps s.visited (depsOf g n) (⟨n, true⟩ :: stk) := by
                    rw [heq]; simp [hf']
                  exact hstk f this

theorem loopInv_start {g : Graph} {s : SortState} {k : String}
    (h : LoopInv g [] s []) (hk : k ∈ nodeList g) :
    LoopInv g [⟨k, false⟩] s [] := by
  refine ⟨?_, h.vis_sub, h.res_iff, h.res_nodup, h.vis_closed, h.res_order,
    ?_, h.onpath_iff, h.path_nodup, h.path_not_vis⟩
  · intro f hf
    rcases List.mem_singleton.mp hf with rfl
    exact hk
  · refine Shape.base _ _ ?_
    intro f hf
    rcases List.mem_singleton.mp hf with rfl
    rfl

theorem dfsAll_main (g : Graph) (fuel : Nat) : ∀ (ks : List String) (s : SortState),
    LoopInv g [] s [] → (∀ k ∈ ks, k ∈ nodeList g) →
    (∀ s', dfsAll (depsOf g) fuel ks s = .finished s' →
      LoopInv g [] s' [] ∧ (∀ x ∈ s.visited, x ∈ s'.visited) ∧
      (∀ k ∈ ks, k ∈ s'.visited)) ∧
    (∀ n, dfsAll (depsOf g) fuel ks s = .cycleAt n →
      ∃ c, isPath g n c n = true) := by
  intro ks
  induction ks with
  | nil =>
      intro s hinv _
      constructor
      · intro s' h'
        simp only [dfsAll] at h'
        cases h'
        exact ⟨hinv, fun x hx => hx, by simp⟩
      · intro n h'
        simp only [dfsAll] at h'
        exact absurd h' (by simp)
  | cons k ks ih =>
      intro s hinv hks
      have hk : k ∈ nodeList g := hks k (List.mem_cons_self _ _)
      have hks' : ∀ k' ∈ ks, k' ∈ nodeList g :=
        fun k' hk' => hks k' (List.mem_cons_of_mem _ hk')
      by_cases hv : k ∈ s.visited
      · have hstep : dfsAll (depsOf g) fuel (k :: ks) s
            = dfsAll (depsOf g) fuel ks s := by
          simp [dfsAll, hv]
        rw [hstep]
        obtain ⟨hfin, hcyc⟩ := ih s hinv hks'
        refine ⟨?_, hcyc⟩
        intro s' h'
        obtain ⟨hinv', hmono, hkdone⟩ := hfin s' h'
        refine ⟨hinv', hmono, ?_⟩
        intro k' hk'
        rcases List.mem_cons.mp hk' with rfl | hk''
        · exact hmono _ hv
        · exact hkdone k' hk''
      · obtain ⟨hinfin, hincyc⟩ :=
          dfsLoop_main g fuel [⟨k, false⟩] s [] (loopInv_start hinv hk)
        cases hloop : dfsLoop (depsOf g) fuel [⟨k, false⟩] s with
        | finished s1 =>
            have hstep : dfsAll (depsOf g) fuel (k :: ks) s
                = dfsAll (depsOf g) fuel ks s1 := by
              simp [dfsAll, hv, hloop]
            rw [hstep]
            obtain ⟨hinv1, hmono1, hstk1⟩ := hinfin s1 hloop
            obtain ⟨hfin, hcyc⟩ := ih s1 hinv1 hks'
            refine ⟨?_, hcyc⟩
            intro s' h'
            obtain ⟨hinv', hmono, hkdone⟩ := hfin s' h'
            refine ⟨hinv', fun x hx => hmono x (hmono1 x hx), ?_⟩
            intro k' hk'
            rcases List.mem_cons.mp hk' with rfl | hk''
            · exact hmono _ (hstk1 ⟨k', false⟩ (by simp))
            · exact hkdone k' hk''
        | cycleAt n =>
            have hstep : dfsAll (depsOf g) fuel (k :: ks) s = .cycleAt n := by
              simp [dfsAll, hv, hloop]
            rw [hstep]
            constructor
            · intro s' h'; exact absurd h' (by simp)
            · intro m h'
              have hmn : m = n := by
                have : LoopRes.cycleAt n = LoopRes.cycleAt m := h'
                cases this; rfl
              subst hmn
              exact hincyc m hloop
        | outOfFuel =>
            have hstep : dfsAll (depsOf g) fuel (k :: ks) s = .outOfFuel := by
              simp [dfsAll, hv, hloop]
            rw [hstep]
            constructor
            · intro s' h'; exact absurd h' (by simp)
            · intro m h'; exact absurd h' (by simp)

theorem loopInv_init (g : Graph) : LoopInv g [] ⟨[], [], []⟩ [] := by
  refine ⟨by simp, by simp, by simp, List.nodup_nil, by simp, by simp,
    Shape.base _ _ (by simp), by simp, List.nodup_nil, by simp⟩

/-- Everything `topoSort` guarantees about a successful run. -/
theorem topoSort_ok_spec {g : Graph} {l : List String}
    (h : topoSort g = .ok l) :
    l.Nodup ∧ (∀ x ∈ l, x ∈ nodeList g) ∧ (∀ k ∈ keysList g, k ∈ l) ∧
    (∀ u ∈ l, ∀ v ∈ depsOf g u, v ∈ l) ∧
    (∀ u v, u ∈ l → v ∈ depsOf g u → l.indexOf v < l.indexOf u) := by
  unfold topoSort sortCore at h
  obtain ⟨hfin, -⟩ := dfsAll_main g (loopFuel g) (keysList g) ⟨[], [], []⟩
    (loopInv_init g) (fun _ hk => key_mem_nodeList hk)
  cases hall : dfsAll (depsOf g) (loopFuel g) (keysList g) ⟨[], [], []⟩ with
  | finished s' =>
      rw [hall] at h
      have hl : s'.result = l := by
        simpa using h
      obtain ⟨hinv', -, hkdone⟩ := hfin s' hall
      subst hl
      refine ⟨hinv'.res_nodup, ?_, ?_, ?_, hinv'.res_order⟩
      · intro x hx
        exact hinv'.vis_sub x ((hinv'.res_iff x).mp hx)
      · intro k hk
        exact (hinv'.res_iff k).mpr (hkdone k hk)
      · intro u hu v hv
        exact (hinv'.res_iff v).mpr
          (hinv'.vis_closed u ((hinv'.res_iff u).mp hu) v hv)
  | cycleAt n => rw [hall] at h; exact absurd h (by simp)
  | outOfFuel => rw [hall] at h; exact absurd h (by simp)

/-- A `topoSort` error is always the cycle message for a node that really
lies on a dependency cycle. -/
theorem topoSort_error_spec {g : Graph} {e : String}
    (h : topoSort g = .error e) :
    ∃ n c, e = cycleMsg n ∧ isPath g n c n = true := by
  unfold topoSort sortCore at h
  obtain ⟨-, hcyc⟩ := dfsAll_main g (loopFuel g) (keysList g) ⟨[], [], []⟩
    (loopInv_init g) (fun _ hk => key_mem_nodeList hk)
  cases hall : dfsAll (depsOf g) (loopFuel g) (keysList g) ⟨[], [], []⟩ with
  | finished s' => rw [hall] at h; exact absurd h (by simp)
  | cycleAt n =>
      rw [hall] at h
      obtain ⟨c, hc⟩ := hcyc n hall
      refine ⟨n, c, ?_, hc⟩
      have : (Except.error (cycleMsg n) : Except String (List String))
          = Except.error e := h
      cases this; rfl
  | outOfFuel => exact absurd hall (topoSort_fueled g)

/-- Along any dependency path the position in a successful ordering strictly
decreases. -/
theorem isPath_indexOf_lt {g : Graph} {l : List String}
    (hclosed : ∀ u ∈ l, ∀ v ∈ depsOf g u, v ∈ l)
    (horder : ∀ u v, u ∈ l → v ∈ depsOf g u → l.indexOf v < l.indexOf u) :
    ∀ (c : List String) (u v : String), isPath g u c v = true → u ∈ l →
      v ∈ l ∧ l.indexOf v < l.indexOf u := by
  intro c
  induction c with
  | nil =>
      intro u v hp hu
      simp only [isPath, edgeB, decide_eq_true_eq] at hp
      exact ⟨hclosed u hu v hp, horder u v hu hp⟩
  | cons w ws ih =>
      intro u v hp hu
      simp only [isPath, Bool.and_eq_true, edgeB, decide_eq_true_eq] at hp
      have hw : w ∈ l := hclosed u hu w hp.1
      obtain ⟨hv, hlt⟩ := ih w v hp.2 hw
      exact ⟨hv, lt_trans hlt (horder u w hu hp.1)⟩

/-- A node with a cycle through it is an adjacency-list key. -/
theorem cycle_node_mem_keys {g : Graph} {n : String} {c : List String}
    (h : isPath g n c n = true) : n ∈ keysList g := by
  apply depsOf_ne_nil_mem_keys
  cases c with
  | nil =>
      simp only [isPath, edgeB, decide_eq_true_eq] at h
      intro hnil
      rw [hnil] at h
      simp at h
  | cons w ws =>
      simp only [isPath, Bool.and_eq_true, edgeB, decide_eq_true_eq] at h
      intro hnil
      rw [hnil] at h
      simp at h

theorem lookupKey_eq_none {g : Graph} {n : String} (h : n ∉ keysList g) :
    lookupKey g n = none := by
  induction g with
  | nil => rfl
  | cons e rest ih =>
      simp only [keysList, List.map_cons, List.mem_cons] at h
      have h1 : ¬(e.1 = n) := fun hc => h (Or.inl hc.symm)
      have h2 : n ∉ keysList rest := fun hc => h (Or.inr hc)
      simp only [lookupKey, if_neg h1]
      exact ih h2

theorem allDeps_mem_exists {g : Graph} (hnodup : (keysList g).Nodup) {x : String}
    (hx : x ∈ allDeps g) : ∃ u, u ∈ keysList g ∧ x ∈ depsOf g u := by
  induction g with
  | nil => simp [allDeps] at hx
  | cons e rest ih =>
      simp only [keysList, List.map_cons, List.nodup_cons] at hnodup
      simp only [allDeps, List.mem_append] at hx
      rcases hx with hx | hx
      · refine ⟨e.1, by simp [keysList], ?_⟩
        simp [depsOf, lookupKey, hx]
      · obtain ⟨u, hu, hxu⟩ := ih hnodup.2 hx
        have hne : e.1 ≠ u := by
          intro hc
          rw [hc] at hnodup
          exact hnodup.1 (by simpa [keysList] using hu)
        refine ⟨u, by simp [keysList]; exact Or.inr (by simpa [keysList] using hu), ?_⟩
        simpa [depsOf, lookupKey, if_neg hne] using hxu

/-- C1: for every acyclic dependency graph, `topoSort` returns without error
a list containing each node of the graph (each adjacency-list key and each
name appearing in a dependency list) exactly once, and for every edge
`u -> v` (u depends on v) the position of `v` precedes the position of `u`. -/
theorem c1_topoSort_acyclic_correct (g : Graph) (hnodup : (keysList g).Nodup)
    (hacyc : ∀ n c, isPath g n c n = false) :
    ∃ l, topoSort g = .ok l ∧ l.Nodup ∧ (∀ x, x ∈ l ↔ x ∈ nodeList g) ∧
      ∀ u v, v ∈ depsOf g u → l.indexOf v < l.indexOf u := by
  cases h : topoSort g with
  | error e =>
      obtain ⟨n, c, -, hc⟩ := topoSort_error_spec h
      rw [hacyc n c] at hc
      exact absurd hc (by simp)
  | ok l =>
      obtain ⟨hnd, hsub, hkeys, hclosed, horder⟩ := topoSort_ok_spec h
      refine ⟨l, rfl, hnd, ?_, ?_⟩
      · intro x
        constructor
        · intro hx; exact hsub x hx
        · intro hx
          have hx' : x ∈ keysList g ∨ x ∈ allDeps g := by
            simpa [nodeList, List.mem_dedup, List.mem_append] using hx
          rcases hx' with hk | hd
          · exact hkeys x hk
          · obtain ⟨u, hu, hxu⟩ := allDeps_mem_exists hnodup hd
            exact hclosed u (hkeys u hu) x hxu
      · intro u v hv
        have hne : depsOf g u ≠ [] := by
          intro h0; rw [h0] at hv; simp at hv
        have hu : u ∈ l := hkeys u (depsOf_ne_nil_mem_keys hne)
        exact horder u v hu hv

theorem singleA_no_path :
    ∀ (c : List String) (u v : String),
      isPath [("a", ([] : List String))] u c v = false := by
  intro c
  induction c with
  | nil =>
      intro u v
      have : depsOf [("a", ([] : List String))] u = [] := by
        by_cases h : "a" = u <;> simp [depsOf, lookupKey, h]
      simp [isPath, edgeB, this]
  | cons w ws ih =>
      intro u v
      have : depsOf [("a", ([] : List String))] u = [] := by
        by_cases h : "a" = u <;> simp [depsOf, lookupKey, h]
      simp [isPath, edgeB, this]

theorem c1_witness :
    ((keysList [("a", ([] : List String))]).Nodup ∧
      (∀ n c, isPath [("a", ([] : List String))] n c n = false)) ∧
    (∃ l, topoSort [("a", ([] : List String))] = .ok l ∧ l.Nodup ∧
      (∀ x, x ∈ l ↔ x ∈ nodeList [("a", ([] : List String))]) ∧
      ∀ u v, v ∈ depsOf [("a", ([] : List String))] u →
        l.indexOf v < l.indexOf u) :=
  ⟨⟨by decide, fun n c => singleA_no_path c n n⟩,
    c1_topoSort_acyclic_correct [("a", [])] (by decide)
      (fun n c => singleA_no_path c n n)⟩

/-- C2: for every graph containing a directed cycle, `topoSort` returns an
error, and the service name carried in that error lies on a cycle. -/
theorem c2_topoSort_cycle_error (g : Graph)
    (hcyc : ∃ n c, isPath g n c n = true) :
    ∃ m c, topoSort g = .error (cycleMsg m) ∧ isPath g m c m = true := by
  cases h : topoSort g with
  | ok l =>
      obtain ⟨n, c, hc⟩ := hcyc
      obtain ⟨-, -, hkeys, hclosed, horder⟩ := topoSort_ok_spec h
      have hn : n ∈ l := hkeys n (cycle_node_mem_keys hc)
      obtain ⟨-, hlt⟩ := isPath_indexOf_lt hclosed horder c n n hc hn
      exact absurd hlt (lt_irrefl _)
  | error e =>
      obtain ⟨m, c, rfl, hc⟩ := topoSort_error_spec h
      exact ⟨m, c, rfl, hc⟩

theorem c2_witness :
    (∃ n c, isPath [("a", ["a"])] n c n = true) ∧
    (∃ m c, topoSort [("a", ["a"])] = .error (cycleMsg m) ∧
      isPath [("a", ["a"])] m c m = true) :=
  ⟨⟨"a", [], by decide⟩, c2_topoSort_cycle_error [("a", ["a"])] ⟨"a", [], by decide⟩⟩

/-- C9: a name appearing only in dependency lists, never as an
adjacency-list key, is treated as a node with zero out-edges: its
dependency fetch yields the empty list, so its expansion pushes no further
frames, and it is included in any successful ordering. -/
theorem c9_dep_only_zero_outedges (g : Graph) (hnodup : (keysList g).Nodup)
    (n : String) (hn : n ∉ keysList g) :
    depsOf g n = [] ∧ (∀ vis st, pushDeps vis (depsOf g n) st = st) ∧
    ∀ l, topoSort g = .ok l → n ∈ allDeps g → n ∈ l := by
  have hdeps : depsOf g n = [] := by
    rw [depsOf, lookupKey_eq_none hn]; rfl
  refine ⟨hdeps, ?_, ?_⟩
  · intro vis st; rw [hdeps]; rfl
  · intro l hok hmem
    obtain ⟨-, -, hkeys, hclosed, -⟩ := topoSort_ok_spec hok
    obtain ⟨u, hu, hxu⟩ := allDeps_mem_exists hnodup hmem
    exact hclosed u (hkeys u hu) n hxu

theorem c9_witness :
    ((keysList [("a", ["b"])]).Nodup ∧ "b" ∉ keysList [("a", ["b"])]) ∧
    (depsOf [("a", ["b"])] "b" = [] ∧
      (∀ vis st, pushDeps vis (depsOf [("a", ["b"])] "b") st = st) ∧
      ∀ l, topoSort [("a", ["b"])] = .ok l → "b" ∈ allDeps [("a", ["b"])] →
        "b" ∈ l) :=
  ⟨⟨by decide, by decide⟩,
    c9_dep_only_zero_outedges [("a", ["b"])] (by decide) "b" (by decide)⟩

/-! ## Union-find (`union-find/union-find.go`)

The Go `parent map[string]string` is modelled as an association list where
a map write prepends a binding (first binding wins on lookup).  The
recursive `Find` carries a fuel bound on its recursion depth; the bound
passed by `Find` itself is proved sufficient on every well-formed state. -/

/-- The `UnionFind` struct: the parent pointer map. -/
structure UnionFind where
  parent : List (String × String)

/-- Go `uf.parent[x]`: a missing key yields the zero value `""`. -/
def pget (uf : UnionFind) (x : String) : String :=
  (lookupKey uf.parent x).getD ""

/-- Go `uf.parent[x] = v`: a map write. -/
def pset (uf : UnionFind) (x v : String) : UnionFind :=
  ⟨(x, v) :: uf.parent⟩

/-- Go `InitialiseUnionFind`: every node starts as its own parent. -/
def InitialiseUnionFind (nodes : List String) : UnionFind :=
  ⟨nodes.map (fun n => (n, n))⟩

/-- Body of `Find` with path compression, recursion bounded by `fuel`.
The write `uf.parent[x] = r` makes Go's final `return uf.parent[x]`
return `r` itself, so the pair is returned directly. -/
def findAux : Nat → UnionFind → String → String × UnionFind
  | 0, uf, x => (pget uf x, uf)
  | fuel + 1, uf, x =>
      let px := pget uf x
      if px = x then (x, uf)
      else
        let r := findAux fuel uf px
        (r.1, pset r.2 x r.1)

/-- Go `Find`: the fuel `parent.length + 1` always suffices on the states the
program builds (`findAux_spec`). -/
def Find (uf : UnionFind) (x : String) : String × UnionFind :=
  findAux (uf.parent.length + 1) uf x

/-- Go `Union`: merge the sets containing `x` and `y`. -/
def Union (uf : UnionFind) (x y : String) : UnionFind :=
  let fx := Find uf x
  let fy := Find fx.2 y
  if fx.1 ≠ fy.1 then pset fy.2 fy.1 fx.1 else fy.2

/-- A sequence of `Union` calls, as performed by the grouper's main loop. -/
def applyUnions (pairs : List (String × String)) (uf : UnionFind) : UnionFind :=
  pairs.foldl (fun u q => Union u q.1 q.2) uf

/-! ### Parent-chain iteration -/

/-- Iterating the parent pointer. -/
def pIter (uf : UnionFind) : Nat → String → String
  | 0, x => x
  | k + 1, x => pIter uf k (pget uf x)

/-- Name `x` is a root: its own parent. -/
def IsRoot (uf : UnionFind) (x : String) : Prop := pget uf x = x

/-- Name `r` is the root of `x`: reachable along parent pointers and a root. -/
def RootP (uf : UnionFind) (x r : String) : Prop :=
  (∃ k, pIter uf k x = r) ∧ IsRoot uf r

theorem pIter_add (uf : UnionFind) (a b : Nat) (x : String) :
    pIter uf (a + b) x = pIter uf b (pIter uf a x) := by
  induction a generalizing x with
  | zero => simp [pIter]
  | succ a ih =>
      have h1 : a + 1 + b = (a + b) + 1 := by omega
      rw [h1]
      show pIter uf (a + b) (pget uf x) = pIter uf b (pIter uf a (pget uf x))
      exact ih (pget uf x)

theorem pIter_succ' (uf : UnionFind) (k : Nat) (x : String) :
    pIter uf (k + 1) x = pget uf (pIter uf k x) := by
  rw [pIter_add uf k 1 x]
  rfl

theorem pIter_root {uf : UnionFind} {r : String} (h : IsRoot uf r) :
    ∀ k, pIter uf k r = r := by
  intro k
  induction k with
  | zero => rfl
  | succ k ih =>
      show pIter uf k (pget uf r) = r
      rw [h]
      exact ih

theorem pIter_const {uf : UnionFind} {x : String} (h : pget uf x = x) :
    ∀ k, pIter uf k x = x := pIter_root h

theorem rootP_unique {uf : UnionFind} {x r₁ r₂ : String}
    (h₁ : RootP uf x r₁) (h₂ : RootP uf x r₂) : r₁ = r₂ := by
  obtain ⟨⟨k₁, hk₁⟩, hr₁⟩ := h₁
  obtain ⟨⟨k₂, hk₂⟩, hr₂⟩ := h₂
  rcases Nat.le_total k₁ k₂ with h | h
  · have : pIter uf k₂ x = r₁ := by
      have hsplit : k₂ = k₁ + (k₂ - k₁) := by omega
      rw [hsplit, pIter_add, hk₁, pIter_root hr₁]
    rw [this] at hk₂
    exact hk₂
  · have : pIter uf k₁ x = r₂ := by
      have hsplit : k₁ = k₂ + (k₁ - k₂) := by omega
      rw [hsplit, pIter_add, hk₂, pIter_root hr₂]
    rw [this] at hk₁
    exact hk₁.symm

theorem rootP_step {uf : UnionFind} {z r : String}
    (h : RootP uf (pget uf z) r) : RootP uf z r := by
  obtain ⟨⟨k, hk⟩, hr⟩ := h
  exact ⟨⟨k + 1, hk⟩, hr⟩

theorem rootP_unstep {uf : UnionFind} {z r : String} (hnr : pget uf z ≠ z)
    (h : RootP uf z r) : RootP uf (pget uf z) r := by
  obtain ⟨⟨k, hk⟩, hr⟩ := h
  cases k with
  | zero =>
      exfalso
      apply hnr
      have : z = r := hk
      rw [this]
      exact hr
  | succ k => exact ⟨⟨k, hk⟩, hr⟩

theorem rootP_self {uf : UnionFind} {r : String} (h : IsRoot uf r) :
    RootP uf r r := ⟨⟨0, rfl⟩, h⟩

/-! ### Well-formed states -/

/-- The invariant every state built by the program satisfies: the parent map
is defined exactly on the initialised nodes, stays inside them, and the
parent graph is acyclic (witnessed by a potential function). -/
structure UFWf (nodes : List String) (uf : UnionFind) : Prop where
  dom : ∀ x, (lookupKey uf.parent x).isSome ↔ x ∈ nodes
  closed : ∀ x ∈ nodes, pget uf x ∈ nodes
  acyc : ∃ d : String → Nat, ∀ x ∈ nodes, pget uf x ≠ x → d (pget uf x) < d x

theorem pIter_mem {nodes : List String} {uf : UnionFind}
    (hclosed : ∀ x ∈ nodes, pget uf x ∈ nodes) {x : String} (hx : x ∈ nodes) :
    ∀ k, pIter uf k x ∈ nodes := by
  intro k
  induction k generalizing x with
  | zero => exact hx
  | succ k ih =>
      show pIter uf k (pget uf x) ∈ nodes
      exact ih (hclosed x hx)

theorem lookupKey_isSome_mem_keys {α : Type} {l : List (String × α)} {x : String}
    (h : (lookupKey l x).isSome) : x ∈ l.map Prod.fst := by
  induction l with
  | nil => simp [lookupKey] at h
  | cons e rest ih =>
      by_cases he : e.1 = x
      · simp [he.symm]
      · simp only [lookupKey, if_neg he] at h
        simp [ih h]

theorem nodup_subset_length {l l' : List String} (hnd : l.Nodup)
    (hsub : ∀ x ∈ l, x ∈ l') : l.length ≤ l'.length := by
  calc l.length = l.toFinset.card := (List.toFinset_card_of_nodup hnd).symm
    _ ≤ l'.toFinset.card := by
        apply Finset.card_le_card
        intro x hx
        rw [List.mem_toFinset] at hx ⊢
        exact hsub x hx
    _ ≤ l'.length := List.toFinset_card_le l'

theorem d_iter_strict {nodes : List String} {uf : UnionFind} {d : String → Nat}
    (hd : ∀ x ∈ nodes, pget uf x ≠ x → d (pget uf x) < d x)
    (hclosed : ∀ x ∈ nodes, pget uf x ∈ nodes) {x : String} (hx : x ∈ nodes) :
    ∀ j i, i < j → (∀ m, m < j → pget uf (pIter uf m x) ≠ pIter uf m x) →
      d (pIter uf j x) < d (pIter uf i x) := by
  intro j
  induction j with
  | zero => intro i hij; omega
  | succ j ih =>
      intro i hij hnr
      have hstep : d (pIter uf (j + 1) x) < d (pIter uf j x) := by
        rw [pIter_succ']
        exact hd (pIter uf j x) (pIter_mem hclosed hx j) (hnr j (by omega))
      by_cases hi : i = j
      · rw [hi]; exact hstep
      · have hij' : i < j := by omega
        exact lt_trans hstep (ih i hij' (fun m hm => hnr m (by omega)))

/-- On a well-formed state every node reaches a root within
`parent.length` steps (pigeonhole on the potential function). -/
theorem root_exists {nodes : List String} {uf : UnionFind} (hwf : UFWf nodes uf)
    {x : String} (hx : x ∈ nodes) :
    ∃ k, k ≤ uf.parent.length ∧ IsRoot uf (pIter uf k x) := by
  by_contra hcon
  push_neg at hcon
  obtain ⟨d, hd⟩ := hwf.acyc
  set L := uf.parent.length with hL
  have hnr : ∀ m, m ≤ L → pget uf (pIter uf m x) ≠ pIter uf m x := by
    intro m hm
    exact hcon m hm
  have hinj : ∀ i ∈ List.range (L + 1), ∀ j ∈ List.range (L + 1),
      pIter uf i x = pIter uf j x → i = j := by
    intro i hi j hj heq
    rw [List.mem_range] at hi hj
    rcases lt_trichotomy i j with h | h | h
    · exfalso
      have := d_iter_strict hd hwf.closed hx j i h
        (fun m hm => hnr m (by omega))
      rw [heq] at this
      exact absurd this (lt_irrefl _)
    · exact h
    · exfalso
      have := d_iter_strict hd hwf.closed hx i j h
        (fun m hm => hnr m (by omega))
      rw [heq] at this
      exact absurd this (lt_irrefl _)
  have hnodup : ((List.range (L + 1)).map (fun i => pIter uf i x)).Nodup := by
    refine List.Nodup.map_on ?_ (List.nodup_range _)
    intro i hi j hj heq
    exact hinj i hi j hj heq
  have hsub : ∀ y ∈ (List.range (L + 1)).map (fun i => pIter uf i x),
      y ∈ uf.parent.map Prod.fst := by
    intro y hy
    rw [List.mem_map] at hy
    obtain ⟨i, -, rfl⟩ := hy
    apply lookupKey_isSome_mem_keys
    rw [hwf.dom]
    exact pIter_mem hwf.closed hx i
  have hlen := nodup_subset_length hnodup hsub
  simp only [List.length_map, List.length_range] at hlen
  omega

/-! ### Map write lemmas and preservation of roots -/

theorem pget_pset (uf : UnionFind) (x v z : String) :
    pget (pset uf x v) z = if x = z then v else pget uf z := by
  simp only [pget, pset, lookupKey]
  split <;> rfl

theorem d_root_lt {nodes : List String} {uf : UnionFind} {d : String → Nat}
    (hd : ∀ x ∈ nodes, pget uf x ≠ x → d (pget uf x) < d x)
    (hclosed : ∀ x ∈ nodes, pget uf x ∈ nodes) :
    ∀ (k : Nat) (x r : String), x ∈ nodes → pIter uf k x = r → IsRoot uf r →
      r ≠ x → d r < d x := by
  intro k
  induction k with
  | zero =>
      intro x r _ hk _ hne
      exact absurd hk.symm hne
  | succ k ih =>
      intro x r hx hk hr hne
      by_cases hpx : pget uf x = x
      · rw [pIter_const hpx] at hk
        exact absurd hk.symm hne
      · have hdx : d (pget uf x) < d x := hd x hx hpx
        have hk' : pIter uf k (pget uf x) = r := hk
        by_cases hrp : r = pget uf x
        · rw [hrp]; exact hdx
        · exact lt_trans (ih (pget uf x) r (hclosed x hx) hk' hr hrp) hdx

theorem rootP_pset_mpr {uf : UnionFind} {x r : String}
    (hroot : RootP uf x r) (hner : r ≠ x) :
    ∀ (k : Nat) (z r' : String), pIter uf k z = r' → IsRoot uf r' →
      RootP (pset uf x r) z r' := by
  have hroot_pres : IsRoot (pset uf x r) r := by
    show pget (pset uf x r) r = r
    rw [pget_pset, if_neg (fun hc => hner hc.symm)]
    exact hroot.2
  intro k
  induction k with
  | zero =>
      intro z r' hk hr'
      have hzr : z = r' := hk
      subst hzr
      by_cases hzx : z = x
      · subst hzx
        exact absurd (rootP_unique hroot (rootP_self hr')) hner
      · refine ⟨⟨0, rfl⟩, ?_⟩
        show pget (pset uf x r) z = z
        rw [pget_pset, if_neg (fun hc => hzx hc.symm)]
        exact hr'
  | succ k ih =>
      intro z r' hk hr'
      by_cases hzx : z = x
      · subst hzx
        have hr'r : r' = r := by
          refine rootP_unique ?_ hroot
          exact ⟨⟨k + 1, hk⟩, hr'⟩
        subst hr'r
        refine ⟨⟨1, ?_⟩, hroot_pres⟩
        show pget (pset uf z r') z = r'
        rw [pget_pset, if_pos rfl]
      · have hk' : pIter uf k (pget uf z) = r' := hk
        have hrec := ih (pget uf z) r' hk' hr'
        have hpz : pget (pset uf x r) z = pget uf z := by
          rw [pget_pset, if_neg (fun hc => hzx hc.symm)]
        refine rootP_step ?_
        rw [hpz]
        exact hrec

theorem ufwf_pset_root {nodes : List String} {uf : UnionFind} {x r : String}
    (hwf : UFWf nodes uf) (hx : x ∈ nodes) (hroot : RootP uf x r)
    (hner : r ≠ x) : UFWf nodes (pset uf x r) := by
  have hrmem : r ∈ nodes := by
    obtain ⟨⟨k, hk⟩, -⟩ := hroot
    rw [← hk]
    exact pIter_mem hwf.closed hx k
  refine ⟨?_, ?_, ?_⟩
  · intro z
    simp only [pset, lookupKey]
    by_cases hzx : x = z
    · subst hzx
      simp [hwf.dom, hx]
    · simp only [if_neg hzx]
      exact hwf.dom z
  · intro z hz
    rw [pget_pset]
    by_cases hzx : x = z
    · simp [hzx, hrmem]
    · simp only [if_neg hzx]
      exact hwf.closed z hz
  · obtain ⟨d, hd⟩ := hwf.acyc
    refine ⟨d, ?_⟩
    intro z hz hne
    rw [pget_pset] at hne ⊢
    by_cases hzx : x = z
    · simp only [if_pos hzx] at hne ⊢
      obtain ⟨⟨k, hk⟩, hr⟩ := hroot
      exact d_root_lt hd hwf.closed k x r hx hk hr (by rw [hzx]; exact hne) |>.trans_le
        (le_of_eq (by rw [hzx]))
    · simp only [if_neg hzx] at hne ⊢
      exact hd z hz hne

theorem rootP_pset_iff {nodes : List String} {uf : UnionFind} {x r : String}
    (hwf : UFWf nodes uf) (hx : x ∈ nodes) (hroot : RootP uf x r) (hner : r ≠ x) :
    ∀ z ∈ nodes, ∀ r', RootP (pset uf x r) z r' ↔ RootP uf z r' := by
  intro z hz r'
  constructor
  · intro h'
    obtain ⟨k₀, -, hr₀⟩ := root_exists hwf hz
    have hold : RootP uf z (pIter uf k₀ z) := ⟨⟨k₀, rfl⟩, hr₀⟩
    have hnew : RootP (pset uf x r) z (pIter uf k₀ z) :=
      rootP_pset_mpr hroot hner k₀ z (pIter uf k₀ z) rfl hr₀
    rw [rootP_unique h' hnew]
    exact hold
  · intro h'
    obtain ⟨⟨k, hk⟩, hr'⟩ := h'
    exact rootP_pset_mpr hroot hner k z r' hk hr'

/-! ### `Find` and `Union` specifications -/

theorem findAux_spec {nodes : List String} :
    ∀ (fuel : Nat) (uf : UnionFind) (x r : String) (k : Nat),
      UFWf nodes uf → x ∈ nodes → pIter uf k x = r → IsRoot uf r → k < fuel →
      (findAux fuel uf x).1 = r ∧ UFWf nodes (findAux fuel uf x).2 ∧
      (∀ z ∈ nodes, ∀ r', RootP (findAux fuel uf x).2 z r' ↔ RootP uf z r') := by
  intro fuel
  induction fuel with
  | zero => intro uf x r k _ _ _ _ h; omega
  | succ fuel ih =>
      intro uf x r k hwf hx hk hr hklt
      by_cases hpx : pget uf x = x
      · have hfind : findAux (fuel + 1) uf x = (x, uf) := by
          simp [findAux, hpx]
        have hrx : r = x := by rw [pIter_const hpx k] at hk; exact hk.symm
        rw [hfind]
        exact ⟨hrx.symm, hwf, fun z _ r' => Iff.rfl⟩
      · have hk0 : k ≠ 0 := by
          intro h0
          subst h0
          have hxr : x = r := hk
          apply hpx
          rw [hxr] at hpx ⊢
          exact hr
        obtain ⟨k', rfl⟩ : ∃ k', k = k' + 1 := ⟨k - 1, by omega⟩
        have hk' : pIter uf k' (pget uf x) = r := hk
        have hpxmem : pget uf x ∈ nodes := hwf.closed x hx
        obtain ⟨h1, h2, h3⟩ := ih uf (pget uf x) r k' hwf hpxmem hk' hr (by omega)
        have hfind : findAux (fuel + 1) uf x
            = ((findAux fuel uf (pget uf x)).1,
               pset (findAux fuel uf (pget uf x)).2 x
                 (findAux fuel uf (pget uf x)).1) := by
          simp [findAux, hpx]
        rw [hfind, h1]
        have hroot_x : RootP uf x r := ⟨⟨k' + 1, hk⟩, hr⟩
        have hroot2 : RootP (findAux fuel uf (pget uf x)).2 x r :=
          (h3 x hx r).mpr hroot_x
        have hner : r ≠ x := by
          intro hc
          apply hpx
          rw [← hc]
          exact hr
        refine ⟨rfl, ufwf_pset_root h2 hx hroot2 hner, ?_⟩
        intro z hz r'
        rw [rootP_pset_iff h2 hx hroot2 hner z hz r']
        exact h3 z hz r'

theorem Find_spec {nodes : List String} {uf : UnionFind} {x : String}
    (hwf : UFWf nodes uf) (hx : x ∈ nodes) :
    RootP uf x (Find uf x).1 ∧ UFWf nodes (Find uf x).2 ∧
    (∀ z ∈ nodes, ∀ r', RootP (Find uf x).2 z r' ↔ RootP uf z r') := by
  obtain ⟨k, hkL, hroot⟩ := root_exists hwf hx
  obtain ⟨h1, h2, h3⟩ := findAux_spec (uf.parent.length + 1) uf x
    (pIter uf k x) k hwf hx rfl hroot (by omega)
  unfold Find
  rw [h1]
  exact ⟨⟨⟨k, rfl⟩, hroot⟩, h2, h3⟩

/-! ### `Union` and sequences of unions -/

/-- Two names share a representative. -/
def SameRoot (uf : UnionFind) (x y : String) : Prop :=
  ∃ r, RootP uf x r ∧ RootP uf y r

theorem sameRoot_refl {nodes : List String} {uf : UnionFind} (hwf : UFWf nodes uf)
    {x : String} (hx : x ∈ nodes) : SameRoot uf x x := by
  obtain ⟨k, -, hr⟩ := root_exists hwf hx
  exact ⟨pIter uf k x, ⟨⟨k, rfl⟩, hr⟩, ⟨⟨k, rfl⟩, hr⟩⟩

theorem sameRoot_symm {uf : UnionFind} {x y : String}
    (h : SameRoot uf x y) : SameRoot uf y x := by
  obtain ⟨r, h1, h2⟩ := h
  exact ⟨r, h2, h1⟩

theorem sameRoot_trans {uf : UnionFind} {x y z : String}
    (h1 : SameRoot uf x y) (h2 : SameRoot uf y z) : SameRoot uf x z := by
  obtain ⟨r1, hx, hy⟩ := h1
  obtain ⟨r2, hy', hz⟩ := h2
  rw [rootP_unique hy' hy] at hz
  exact ⟨r1, hx, hz⟩

theorem rootP_mem {nodes : List String} {uf : UnionFind} (hwf : UFWf nodes uf)
    {x r : String} (hx : x ∈ nodes) (h : RootP uf x r) : r ∈ nodes := by
  obtain ⟨⟨k, hk⟩, -⟩ := h
  rw [← hk]
  exact pIter_mem hwf.closed hx k

theorem rootP_exists {nodes : List String} {uf : UnionFind} (hwf : UFWf nodes uf)
    {x : String} (hx : x ∈ nodes) : ∃ r, RootP uf x r := by
  obtain ⟨k, -, hr⟩ := root_exists hwf hx
  exact ⟨pIter uf k x, ⟨k, rfl⟩, hr⟩

theorem sameRoot_iff_of_rootIff {uf uf' : UnionFind} {z w : String}
    (hz : ∀ r', RootP uf' z r' ↔ RootP uf z r')
    (hw : ∀ r', RootP uf' w r' ↔ RootP uf w r') :
    SameRoot uf' z w ↔ SameRoot uf z w := by
  constructor
  · rintro ⟨r, h1, h2⟩; exact ⟨r, (hz r).mp h1, (hw r).mp h2⟩
  · rintro ⟨r, h1, h2⟩; exact ⟨r, (hz r).mpr h1, (hw r).mpr h2⟩

theorem sameRoot_iff_root_eq {uf : UnionFind} {z w rz rw : String}
    (hz : RootP uf z rz) (hw : RootP uf w rw) :
    SameRoot uf z w ↔ rz = rw := by
  constructor
  · rintro ⟨r, h1, h2⟩
    rw [← rootP_unique h1 hz, ← rootP_unique h2 hw]
  · intro h
    exact ⟨rz, hz, h ▸ hw⟩

theorem link_to_ra {uf : UnionFind} {ra rb : String} (hra : IsRoot uf ra)
    (hne : ra ≠ rb) :
    ∀ (k : Nat) (z : String), pIter uf k z = rb →
      RootP (pset uf rb ra) z ra := by
  have hroot' : IsRoot (pset uf rb ra) ra := by
    show pget (pset uf rb ra) ra = ra
    rw [pget_pset, if_neg (fun hc => hne hc.symm)]
    exact hra
  have hbase : RootP (pset uf rb ra) rb ra := by
    refine ⟨⟨1, ?_⟩, hroot'⟩
    show pget (pset uf rb ra) rb = ra
    rw [pget_pset, if_pos rfl]
  intro k
  induction k with
  | zero =>
      intro z hk
      have : z = rb := hk
      subst this
      exact hbase
  | succ k ih =>
      intro z hk
      by_cases hzb : z = rb
      · subst hzb; exact hbase
      · have hk' : pIter uf k (pget uf z) = rb := hk
        have hrec := ih (pget uf z) hk'
        refine rootP_step ?_
        have : pget (pset uf rb ra) z = pget uf z := by
          rw [pget_pset, if_neg (fun hc => hzb hc.symm)]
        rw [this]
        exact hrec

theorem link_avoid {uf : UnionFind} {ra rb : String} (hrb : IsRoot uf rb)
    (hne : ra ≠ rb) :
    ∀ (k : Nat) (z r' : String), pIter uf k z = r' → IsRoot uf r' → r' ≠ rb →
      RootP (pset uf rb ra) z r' := by
  intro k
  induction k with
  | zero =>
      intro z r' hk hr' hner
      have : z = r' := hk
      subst this
      refine ⟨⟨0, rfl⟩, ?_⟩
      show pget (pset uf rb ra) z = z
      rw [pget_pset, if_neg (fun hc => hner hc.symm)]
      exact hr'
  | succ k ih =>
      intro z r' hk hr' hner
      by_cases hzb : z = rb
      · subst hzb
        rw [pIter_root hrb] at hk
        exact absurd hk.symm hner
      · have hk' : pIter uf k (pget uf z) = r' := hk
        have hrec := ih (pget uf z) r' hk' hr' hner
        refine rootP_step ?_
        have : pget (pset uf rb ra) z = pget uf z := by
          rw [pget_pset, if_neg (fun hc => hzb hc.symm)]
        rw [this]
        exact hrec

theorem ufwf_link {nodes : List String} {uf : UnionFind} {ra rb : String}
    (hwf : UFWf nodes uf) (hra : IsRoot uf ra) (hrb : IsRoot uf rb)
    (hramem : ra ∈ nodes) (hrbmem : rb ∈ nodes) (hne : ra ≠ rb) :
    UFWf nodes (pset uf rb ra) ∧
    (∀ z ∈ nodes, ∀ r', RootP (pset uf rb ra) z r' ↔
      ((RootP uf z r' ∧ r' ≠ rb) ∨ (RootP uf z rb ∧ r' = ra))) := by
  have hwf' : UFWf nodes (pset uf rb ra) := by
    refine ⟨?_, ?_, ?_⟩
    · intro z
      simp only [pset, lookupKey]
      by_cases hzb : rb = z
      · subst hzb; simp [hwf.dom, hrbmem]
      · simp only [if_neg hzb]; exact hwf.dom z
    · intro z hz
      rw [pget_pset]
      by_cases hzb : rb = z
      · simp [hzb, hramem]
      · simp only [if_neg hzb]; exact hwf.closed z hz
    · classical
      obtain ⟨d, hd⟩ := hwf.acyc
      refine ⟨fun z => if RootP uf z rb then d z + d ra + 1 else d z, ?_⟩
      intro z hz hnz
      rw [pget_pset] at hnz ⊢
      by_cases hzb : rb = z
      · subst hzb
        rw [if_pos rfl] at hnz ⊢
        dsimp only
        have h1 : RootP uf rb rb := rootP_self hrb
        have h2 : ¬RootP uf ra rb := by
          intro hc
          exact hne (rootP_unique (rootP_self hra) hc)
        rw [if_neg h2, if_pos h1]
        omega
      · rw [if_neg hzb] at hnz ⊢
        dsimp only
        have hcond : RootP uf z rb ↔ RootP uf (pget uf z) rb := by
          constructor
          · intro hc; exact rootP_unstep hnz hc
          · intro hc; exact rootP_step hc
        have hdz : d (pget uf z) < d z := hd z hz hnz
        by_cases hc : RootP uf z rb
        · rw [if_pos hc, if_pos (hcond.mp hc)]; omega
        · rw [if_neg hc, if_neg (fun h => hc (hcond.mpr h))]; omega
  refine ⟨hwf', ?_⟩
  intro z hz r'
  constructor
  · intro h'
    obtain ⟨k₀, -, hr₀⟩ := root_exists hwf hz
    set r₀ := pIter uf k₀ z with hr₀def
    have hold : RootP uf z r₀ := ⟨⟨k₀, rfl⟩, hr₀⟩
    by_cases hb : r₀ = rb
    · have hnew : RootP (pset uf rb ra) z ra := by
        apply link_to_ra hra hne k₀
        rw [← hb]
      rw [rootP_unique h' hnew]
      exact Or.inr ⟨hb ▸ hold, rfl⟩
    · have hnew : RootP (pset uf rb ra) z r₀ :=
        link_avoid hrb hne k₀ z r₀ rfl hr₀ hb
      rw [rootP_unique h' hnew]
      exact Or.inl ⟨hold, hb⟩
  · rintro (⟨⟨⟨k, hk⟩, hr'⟩, hner⟩ | ⟨⟨⟨k, hk⟩, -⟩, rfl⟩)
    · exact link_avoid hrb hne k z r' hk hr' hner
    · exact link_to_ra hra hne k z hk

theorem Union_spec {nodes : List String} {uf : UnionFind} {a b : String}
    (hwf : UFWf nodes uf) (ha : a ∈ nodes) (hb : b ∈ nodes) :
    UFWf nodes (Union uf a b) ∧
    (∀ z ∈ nodes, ∀ w ∈ nodes, SameRoot (Union uf a b) z w ↔
      (SameRoot uf z w ∨ (SameRoot uf z a ∧ SameRoot uf b w) ∨
        (SameRoot uf z b ∧ SameRoot uf a w))) := by
  obtain ⟨hra, hwf1, hiff1⟩ := Find_spec hwf ha
  set ra := (Find uf a).1 with hradef
  set uf1 := (Find uf a).2 with huf1def
  obtain ⟨hrb1, hwf2, hiff2⟩ := Find_spec hwf1 hb
  set rb := (Find uf1 b).1 with hrbdef
  set uf2 := (Find uf1 b).2 with huf2def
  have hrb : RootP uf b rb := (hiff1 b hb rb).mp hrb1
  have hiff12 : ∀ z ∈ nodes, ∀ r', RootP uf2 z r' ↔ RootP uf z r' := by
    intro z hz r'
    rw [hiff2 z hz r', hiff1 z hz r']
  have hramem : ra ∈ nodes := rootP_mem hwf ha hra
  have hrbmem : rb ∈ nodes := rootP_mem hwf hb hrb
  have hUnion : Union uf a b = if ra ≠ rb then pset uf2 rb ra else uf2 := rfl
  have hsame12 : ∀ z ∈ nodes, ∀ w ∈ nodes,
      (SameRoot uf2 z w ↔ SameRoot uf z w) := by
    intro z hz w hw
    exact sameRoot_iff_of_rootIff (hiff12 z hz) (hiff12 w hw)
  by_cases hcase : ra = rb
  · rw [hUnion, if_neg (by simp [hcase])]
    refine ⟨hwf2, ?_⟩
    intro z hz w hw
    rw [hsame12 z hz w hw]
    have hab : SameRoot uf a b := ⟨ra, hra, hcase ▸ hrb⟩
    constructor
    · intro h; exact Or.inl h
    · rintro (h | ⟨h1, h2⟩ | ⟨h1, h2⟩)
      · exact h
      · exact sameRoot_trans (sameRoot_trans h1 hab) h2
      · exact sameRoot_trans (sameRoot_trans h1 (sameRoot_symm hab)) h2
  · rw [hUnion, if_pos (by simp [hcase])]
    have hra2 : RootP uf2 a ra := (hiff12 a ha ra).mpr hra
    have hrb2 : RootP uf2 b rb := (hiff12 b hb rb).mpr hrb
    have hraroot : IsRoot uf2 ra := hra2.2
    have hrbroot : IsRoot uf2 rb := hrb2.2
    obtain ⟨hwf3, hchange⟩ :=
      ufwf_link hwf2 hraroot hrbroot hramem hrbmem hcase
    refine ⟨hwf3, ?_⟩
    intro z hz w hw
    obtain ⟨rz, hrzP⟩ := rootP_exists hwf hz
    obtain ⟨rw', hrwP⟩ := rootP_exists hwf hw
    have hrz2 : RootP uf2 z rz := (hiff12 z hz rz).mpr hrzP
    have hrw2 : RootP uf2 w rw' := (hiff12 w hw rw').mpr hrwP
    have hz3 : RootP (pset uf2 rb ra) z (if rz = rb then ra else rz) := by
      rw [hchange z hz]
      by_cases hc : rz = rb
      · rw [if_pos hc]
        exact Or.inr ⟨hc ▸ hrz2, rfl⟩
      · rw [if_neg hc]
        exact Or.inl ⟨hrz2, hc⟩
    have hw3 : RootP (pset uf2 rb ra) w (if rw' = rb then ra else rw') := by
      rw [hchange w hw]
      by_cases hc : rw' = rb
      · rw [if_pos hc]
        exact Or.inr ⟨hc ▸ hrw2, rfl⟩
      · rw [if_neg hc]
        exact Or.inl ⟨hrw2, hc⟩
    rw [sameRoot_iff_root_eq hz3 hw3,
      sameRoot_iff_root_eq hrzP hrwP,
      sameRoot_iff_root_eq hrzP hra,
      sameRoot_iff_root_eq hrb hrwP,
      sameRoot_iff_root_eq hrzP hrb,
      sameRoot_iff_root_eq hra hrwP]
    constructor
    · intro h
      by_cases h1 : rz = rb <;> by_cases h2 : rw' = rb
      · exact Or.inl (h1.trans h2.symm)
      · rw [if_pos h1, if_neg h2] at h
        exact Or.inr (Or.inr ⟨h1, h⟩)
      · rw [if_neg h1, if_pos h2] at h
        exact Or.inr (Or.inl ⟨h, h2.symm⟩)
      · rw [if_neg h1, if_neg h2] at h
        exact Or.inl h
    · rintro (h | ⟨h1, h2⟩ | ⟨h1, h2⟩)
      · rw [h]
      · have hz' : rz ≠ rb := by rw [h1]; exact hcase
        rw [if_neg hz', if_pos h2.symm, h1]
      · have hw' : rw' ≠ rb := by rw [← h2]; exact hcase
        rw [if_pos h1, if_neg hw', h2]

/-! ### The initial state and sequences of unions -/

theorem init_lookup (nodes : List String) (x : String) :
    lookupKey (InitialiseUnionFind nodes).parent x
      = if x ∈ nodes then some x else none := by
  induction nodes with
  | nil => simp [InitialiseUnionFind, lookupKey]
  | cons m rest ih =>
      simp only [InitialiseUnionFind, List.map_cons, lookupKey] at ih ⊢
      by_cases hm : m = x
      · subst hm; simp
      · rw [if_neg hm, ih]
        have hxm : ¬(x = m) := fun hc => hm hc.symm
        by_cases hx : x ∈ rest
        · rw [if_pos hx, if_pos (List.mem_cons_of_mem _ hx)]
        · rw [if_neg hx, if_neg (by simp [hxm, hx])]

theorem ufwf_init (nodes : List String) :
    UFWf nodes (InitialiseUnionFind nodes) := by
  refine ⟨?_, ?_, ?_⟩
  · intro x
    rw [init_lookup]
    by_cases hx : x ∈ nodes <;> simp [hx]
  · intro x hx
    simp [pget, init_lookup, hx]
  · refine ⟨fun _ => 0, ?_⟩
    intro x hx hne
    exfalso
    apply hne
    simp [pget, init_lookup, hx]

theorem init_sameRoot (nodes : List String) {x y : String}
    (hx : x ∈ nodes) (hy : y ∈ nodes) :
    SameRoot (InitialiseUnionFind nodes) x y ↔ x = y := by
  have hrx : RootP (InitialiseUnionFind nodes) x x :=
    rootP_self (by simp [IsRoot, pget, init_lookup, hx])
  have hry : RootP (InitialiseUnionFind nodes) y y :=
    rootP_self (by simp [IsRoot, pget, init_lookup, hy])
  exact sameRoot_iff_root_eq hrx hry

theorem eqvGen_nil (x y : String) :
    Relation.EqvGen (fun a b => (a, b) ∈ ([] : List (String × String))) x y ↔
      x = y := by
  constructor
  · intro h
    induction h with
    | rel a b hab => simp at hab
    | refl a => rfl
    | symm a b _ ih => exact ih.symm
    | trans a b c _ _ ih1 ih2 => exact ih1.trans ih2
  · rintro rfl
    exact Relation.EqvGen.refl x

theorem applyUnions_spec (nodes : List String) :
    ∀ pairs : List (String × String),
      (∀ q ∈ pairs, q.1 ∈ nodes ∧ q.2 ∈ nodes) →
      UFWf nodes (applyUnions pairs (InitialiseUnionFind nodes)) ∧
      (∀ x ∈ nodes, ∀ y ∈ nodes,
        SameRoot (applyUnions pairs (InitialiseUnionFind nodes)) x y ↔
        Relation.EqvGen (fun a b => (a, b) ∈ pairs) x y) := by
  intro pairs
  induction pairs using List.reverseRecOn with
  | nil =>
      intro _
      refine ⟨ufwf_init nodes, ?_⟩
      intro x hx y hy
      simp only [applyUnions, List.foldl_nil]
      rw [init_sameRoot nodes hx hy, eqvGen_nil]
  | append_singleton rest q ih =>
      intro hp
      have hprest : ∀ q' ∈ rest, q'.1 ∈ nodes ∧ q'.2 ∈ nodes :=
        fun q' hq' => hp q' (List.mem_append_left _ hq')
      have hq : q.1 ∈ nodes ∧ q.2 ∈ nodes := hp q (by simp)
      obtain ⟨hwfp, hiffp⟩ := ih hprest
      have happ : applyUnions (rest ++ [q]) (InitialiseUnionFind nodes)
          = Union (applyUnions rest (InitialiseUnionFind nodes)) q.1 q.2 := by
        simp [applyUnions, List.foldl_append]
      obtain ⟨hwf', hsame'⟩ := Union_spec hwfp hq.1 hq.2
      rw [happ]
      refine ⟨hwf', ?_⟩
      intro x hx y hy
      rw [hsame' x hx y hy]
      constructor
      · rintro (h | ⟨h1, h2⟩ | ⟨h1, h2⟩)
        · exact Relation.EqvGen.mono (fun a b hab => List.mem_append_left _ hab)
            ((hiffp x hx y hy).mp h)
        · refine Relation.EqvGen.trans x q.1 y ?_ ?_
          · exact Relation.EqvGen.mono
              (fun a b hab => List.mem_append_left _ hab)
              ((hiffp x hx q.1 hq.1).mp h1)
          · refine Relation.EqvGen.trans q.1 q.2 y ?_ ?_
            · exact Relation.EqvGen.rel _ _ (by simp)
            · exact Relation.EqvGen.mono
                (fun a b hab => List.mem_append_left _ hab)
                ((hiffp q.2 hq.2 y hy).mp h2)
        · refine Relation.EqvGen.trans x q.2 y ?_ ?_
          · exact Relation.EqvGen.mono
              (fun a b hab => List.mem_append_left _ hab)
              ((hiffp x hx q.2 hq.2).mp h1)
          · refine Relation.EqvGen.trans q.2 q.1 y ?_ ?_
            · exact Relation.EqvGen.symm _ _
                (Relation.EqvGen.rel _ _ (by simp))
            · exact Relation.EqvGen.mono
                (fun a b hab => List.mem_append_left _ hab)
                ((hiffp q.1 hq.1 y hy).mp h2)
      · intro h
        have key : ∀ u v : String,
            Relation.EqvGen (fun a b => (a, b) ∈ rest ++ [q]) u v →
            u = v ∨ (u ∈ nodes ∧ v ∈ nodes ∧
              (SameRoot (applyUnions rest (InitialiseUnionFind nodes)) u v ∨
                (SameRoot (applyUnions rest (InitialiseUnionFind nodes)) u q.1 ∧
                  SameRoot (applyUnions rest (InitialiseUnionFind nodes)) q.2 v) ∨
                (SameRoot (applyUnions rest (InitialiseUnionFind nodes)) u q.2 ∧
                  SameRoot (applyUnions rest (InitialiseUnionFind nodes)) q.1 v))) := by
          intro u v huv
          induction huv with
          | rel a b hab =>
              rcases List.mem_append.mp hab with hab' | hab'
              · have ha : a ∈ nodes := (hprest _ hab').1
                have hb : b ∈ nodes := (hprest _ hab').2
                refine Or.inr ⟨ha, hb, Or.inl ?_⟩
                exact (hiffp a ha b hb).mpr (Relation.EqvGen.rel _ _ hab')
              · rcases List.mem_singleton.mp hab'
                refine Or.inr ⟨hq.1, hq.2, Or.inr (Or.inl ?_)⟩
                exact ⟨sameRoot_refl hwfp hq.1, sameRoot_refl hwfp hq.2⟩
          | refl a => exact Or.inl rfl
          | symm a b _ ihs =>
              rcases ihs with rfl | ⟨ha, hb, hS⟩
              · exact Or.inl rfl
              · refine Or.inr ⟨hb, ha, ?_⟩
                rcases hS with h1 | ⟨h1, h2⟩ | ⟨h1, h2⟩
                · exact Or.inl (sameRoot_symm h1)
                · exact Or.inr (Or.inr ⟨sameRoot_symm h2, sameRoot_symm h1⟩)
                · exact Or.inr (Or.inl ⟨sameRoot_symm h2, sameRoot_symm h1⟩)
          | trans a b c _ _ ih1 ih2 =>
              rcases ih1 with rfl | ⟨ha, hb, hS1⟩
              · exact ih2
              · rcases ih2 with rfl | ⟨-, hc, hS2⟩
                · exact Or.inr ⟨ha, hb, hS1⟩
                · refine Or.inr ⟨ha, hc, ?_⟩
                  have hq12 : SameRoot (applyUnions rest (InitialiseUnionFind nodes)) q.1 q.1 :=
                    sameRoot_refl hwfp hq.1
                  have hq22 : SameRoot (applyUnions rest (InitialiseUnionFind nodes)) q.2 q.2 :=
                    sameRoot_refl hwfp hq.2
                  rcases hS1 with h1 | ⟨h1, h2⟩ | ⟨h1, h2⟩ <;>
                    rcases hS2 with h3 | ⟨h3, h4⟩ | ⟨h3, h4⟩
                  · exact Or.inl (sameRoot_trans h1 h3)
                  · exact Or.inr (Or.inl ⟨sameRoot_trans h1 h3, h4⟩)
                  · exact Or.inr (Or.inr ⟨sameRoot_trans h1 h3, h4⟩)
                  · exact Or.inr (Or.inl ⟨h1, sameRoot_trans h2 h3⟩)
                  · exact Or.inr (Or.inl ⟨h1, h4⟩)
                  · exact Or.inl (sameRoot_trans h1 h4)
                  · exact Or.inr (Or.inr ⟨h1, sameRoot_trans h2 h3⟩)
                  · exact Or.inl (sameRoot_trans h1 h4)
                  · exact Or.inr (Or.inr ⟨h1, h4⟩)
        rcases key x y h with rfl | ⟨-, -, hS⟩
        · exact Or.inl (sameRoot_refl hwfp hx)
        · exact hS

/-- C3: after `InitialiseUnionFind` over a set of nodes followed by any
sequence of `Union` calls on those nodes, `Find` is idempotent —
`Find(Find(x))` (in the state `Find(x)` leaves behind) returns `Find(x)`
again — and two nodes get the same `Find` result exactly when they are
connected by some chain of the performed unions. -/
theorem c3_unionFind_equivalence (nodes : List String)
    (pairs : List (String × String))
    (hp : ∀ q ∈ pairs, q.1 ∈ nodes ∧ q.2 ∈ nodes)
    (x y : String) (hx : x ∈ nodes) (hy : y ∈ nodes) :
    (Find ((Find (applyUnions pairs (InitialiseUnionFind nodes)) x).2)
        (Find (applyUnions pairs (InitialiseUnionFind nodes)) x).1).1
      = (Find (applyUnions pairs (InitialiseUnionFind nodes)) x).1 ∧
    ((Find (applyUnions pairs (InitialiseUnionFind nodes)) x).1
        = (Find (applyUnions pairs (InitialiseUnionFind nodes)) y).1 ↔
      Relation.EqvGen (fun a b => (a, b) ∈ pairs) x y) := by
  obtain ⟨hwf, hiff⟩ := applyUnions_spec nodes pairs hp
  set uf := applyUnions pairs (InitialiseUnionFind nodes) with hufdef
  obtain ⟨hrx, hwf1, hiff1⟩ := Find_spec hwf hx
  obtain ⟨hry, -, -⟩ := Find_spec hwf hy
  have hrxmem : (Find uf x).1 ∈ nodes := rootP_mem hwf hx hrx
  constructor
  · obtain ⟨hr2, -, -⟩ := Find_spec hwf1 hrxmem
    have hself : RootP (Find uf x).2 (Find uf x).1 (Find uf x).1 :=
      (hiff1 (Find uf x).1 hrxmem (Find uf x).1).mpr (rootP_self hrx.2)
    exact rootP_unique hr2 hself
  · rw [← sameRoot_iff_root_eq hrx hry]
    exact hiff x hx y hy

theorem c3_witness :
    ((∀ q ∈ [("a", "b")], q.1 ∈ ["a", "b", "c"] ∧ q.2 ∈ ["a", "b", "c"]) ∧
      "a" ∈ ["a", "b", "c"] ∧ "b" ∈ ["a", "b", "c"]) ∧
    ((Find ((Find (applyUnions [("a", "b")]
          (InitialiseUnionFind ["a", "b", "c"])) "a").2)
        (Find (applyUnions [("a", "b")]
          (InitialiseUnionFind ["a", "b", "c"])) "a").1).1
      = (Find (applyUnions [("a", "b")]
          (InitialiseUnionFind ["a", "b", "c"])) "a").1 ∧
    ((Find (applyUnions [("a", "b")]
          (InitialiseUnionFind ["a", "b", "c"])) "a").1
        = (Find (applyUnions [("a", "b")]
          (InitialiseUnionFind ["a", "b", "c"])) "b").1 ↔
      Relation.EqvGen (fun a b => (a, b) ∈ [("a", "b")]) "a" "b")) :=
  ⟨⟨by decide, by decide, by decide⟩,
    c3_unionFind_equivalence ["a", "b", "c"] [("a", "b")] (by decide)
      "a" "b" (by decide) (by decide)⟩

/-! ## The transitive-dependency closure walk (`addTransitiveDeps`)

`local-deploy.go`'s recursive walk, with the Go `set map[string]bool`
threaded as a value.  The fuel only bounds the recursion depth (which the
Go version bounds implicitly because the set grows before every recursive
call); the bound passed by `addTransitiveDeps` is proved sufficient for
every input, cyclic graphs included. -/

/-- The recursive walk: for each dependency of `service` not yet in the
set, add it and recurse into it. -/
def addTransitiveDepsF (g : Graph) : Nat → String → List String → List String
  | 0, _, set => set
  | fuel + 1, service, set =>
      (depsOf g service).foldl
        (fun acc d => if d ∈ acc then acc
          else addTransitiveDepsF g fuel d (d :: acc)) set

/-- Ample recursion depth: each nesting level first adds a fresh dependency
name to the set. -/
def transFuel (g : Graph) : Nat := (allDeps g).length + 1

/-- The `addTransitiveDeps` of `local-deploy.go`. -/
def addTransitiveDeps (g : Graph) (service : String) (set : List String) :
    List String :=
  addTransitiveDepsF g (transFuel g) service set

/-- There is a dependency path from `s` to `z` all of whose nodes after `s`
(`z` included) lie outside `avoid`. -/
def AvoidReach (g : Graph) (avoid : List String) (s z : String) : Prop :=
  ∃ l, isPath g s l z = true ∧ (∀ w ∈ l, w ∉ avoid) ∧ z ∉ avoid

/-- Name `z` is reached from the pending dependency `d`: either it is `d` itself
or lies on an avoiding path from `d`, with `d` itself outside `avoid`. -/
def ARFrom (g : Graph) (avoid : List String) (d z : String) : Prop :=
  d ∉ avoid ∧ (z = d ∨ AvoidReach g avoid d z)

theorem avoidReach_anti {g : Graph} {S S' : List String} {s z : String}
    (hsub : ∀ x ∈ S, x ∈ S') (h : AvoidReach g S' s z) : AvoidReach g S s z := by
  obtain ⟨l, hp, hav, hz⟩ := h
  exact ⟨l, hp, fun w hw hmem => hav w hw (hsub w hmem),
    fun hmem => hz (hsub z hmem)⟩

theorem arFrom_anti {g : Graph} {S S' : List String} {d z : String}
    (hsub : ∀ x ∈ S, x ∈ S') (h : ARFrom g S' d z) : ARFrom g S d z := by
  obtain ⟨hd, h2⟩ := h
  refine ⟨fun hmem => hd (hsub d hmem), ?_⟩
  rcases h2 with h2 | h2
  · exact Or.inl h2
  · exact Or.inr (avoidReach_anti hsub h2)

theorem isPath_suffix {g : Graph} :
    ∀ (l₁ : List String) (u b z : String) (l₂ : List String),
      isPath g u (l₁ ++ b :: l₂) z = true → isPath g b l₂ z = true := by
  intro l₁
  induction l₁ with
  | nil =>
      intro u b z l₂ h
      simp only [List.nil_append, isPath, Bool.and_eq_true] at h
      exact h.2
  | cons w l₁ ih =>
      intro u b z l₂ h
      simp only [List.cons_append, isPath, Bool.and_eq_true] at h
      exact ih w b z l₂ h.2

theorem isPath_concat {g : Graph} :
    ∀ (l₁ : List String) (u v : String) (l₂ : List String) (z : String),
      isPath g u l₁ v = true → isPath g v l₂ z = true →
      isPath g u (l₁ ++ v :: l₂) z = true := by
  intro l₁
  induction l₁ with
  | nil =>
      intro u v l₂ z h1 h2
      simp only [isPath] at h1
      simp only [List.nil_append, isPath, Bool.and_eq_true]
      exact ⟨h1, h2⟩
  | cons w l₁ ih =>
      intro u v l₂ z h1 h2
      simp only [isPath, Bool.and_eq_true] at h1
      simp only [List.cons_append, isPath, Bool.and_eq_true]
      exact ⟨h1.1, ih w v l₂ z h1.2 h2⟩

theorem isPath_drop_start {g : Graph} :
    ∀ (n : Nat) (l : List String) (u z : String), l.length ≤ n →
      isPath g u l z = true →
      ∃ l', isPath g u l' z = true ∧ u ∉ l' ∧ ∀ w ∈ l', w ∈ l := by
  intro n
  induction n with
  | zero =>
      intro l u z hlen hp
      have : l = [] := List.length_eq_zero.mp (by omega)
      subst this
      exact ⟨[], hp, by simp, by simp⟩
  | succ n ih =>
      intro l u z hlen hp
      by_cases hu : u ∈ l
      · obtain ⟨l₁, l₂, rfl⟩ := List.append_of_mem hu
        have hp2 : isPath g u l₂ z = true := isPath_suffix l₁ u u z l₂ hp
        have hlen2 : l₂.length ≤ n := by
          simp only [List.length_append, List.length_cons] at hlen
          omega
        obtain ⟨l', h1, h2, h3⟩ := ih l₂ u z hlen2 hp2
        exact ⟨l', h1, h2, fun w hw => by
          simp only [List.mem_append, List.mem_cons]
          exact Or.inr (Or.inr (h3 w hw))⟩
      · exact ⟨l, hp, hu, fun w hw => hw⟩

theorem arFrom_compose {g : Graph} {S : List String} {d w z : String}
    {l : List String} (h : ARFrom g S d w) (hp : isPath g w l z = true)
    (hav : ∀ x ∈ l, x ∉ S) (hz : z ∉ S) : ARFrom g S d z := by
  obtain ⟨hd, h2⟩ := h
  rcases h2 with rfl | ⟨l₁, hp1, hav1, hw⟩
  · exact ⟨hd, Or.inr ⟨l, hp, hav, hz⟩⟩
  · refine ⟨hd, Or.inr ⟨l₁ ++ w :: l, isPath_concat l₁ d w l z hp1 hp, ?_, hz⟩⟩
    intro x hx
    rcases List.mem_append.mp hx with hx | hx
    · exact hav1 x hx
    · rcases List.mem_cons.mp hx with rfl | hx
      · exact hw
      · exact hav x hx

/-- The missing deps-universe count, the decreasing measure of the walk. -/
def missT (g : Graph) (S : List String) : Nat :=
  (((allDeps g).dedup).filter (fun x => decide (x ∉ S))).length

theorem missT_anti {g : Graph} {S S' : List String} (hsub : ∀ x ∈ S, x ∈ S') :
    missT g S' ≤ missT g S := by
  apply length_filter_mono
  intro x _ hx
  simp only [decide_eq_true_eq] at hx ⊢
  exact fun hmem => hx (hsub x hmem)

theorem missT_strict {g : Graph} {S : List String} {d : String}
    (hd : d ∈ allDeps g) (hdS : d ∉ S) : missT g (d :: S) < missT g S := by
  apply length_filter_strict (n := d)
  · rw [List.mem_dedup]; exact hd
  · simp [hdS]
  · simp
  · intro x _ hx
    simp only [decide_eq_true_eq, List.mem_cons] at hx ⊢
    exact fun hmem => hx (Or.inr hmem)

theorem addTDF_mono (g : Graph) :
    ∀ (fuel : Nat) (s : String) (S : List String), ∀ z ∈ S,
      z ∈ addTransitiveDepsF g fuel s S := by
  intro fuel
  induction fuel with
  | zero => intro s S z hz; exact hz
  | succ fuel ih =>
      intro s S z hz
      show z ∈ (depsOf g s).foldl _ S
      have : ∀ (ds : List String) (acc : List String), z ∈ acc →
          z ∈ ds.foldl (fun acc d => if d ∈ acc then acc
            else addTransitiveDepsF g fuel d (d :: acc)) acc := by
        intro ds
        induction ds with
        | nil => intro acc h; exact h
        | cons d ds ihd =>
            intro acc h
            simp only [List.foldl_cons]
            by_cases hmem : d ∈ acc
            · rw [if_pos hmem]; exact ihd acc h
            · rw [if_neg hmem]
              exact ihd _ (ih d (d :: acc) z (List.mem_cons_of_mem _ h))
      exact this (depsOf g s) S hz

theorem addTDF_spec (g : Graph) :
    ∀ (fuel : Nat) (s : String) (S : List String), missT g S < fuel →
      ∀ z, z ∈ addTransitiveDepsF g fuel s S ↔ z ∈ S ∨ AvoidReach g S s z := by
  intro fuel
  induction fuel with
  | zero => intro s S h; omega
  | succ fuel ih =>
      intro s S hmiss z
      have inner : ∀ (ds : List String), (∀ d ∈ ds, d ∈ allDeps g) →
          ∀ (S' : List String), missT g S' ≤ fuel →
          ∀ z, z ∈ ds.foldl (fun acc d => if d ∈ acc then acc
              else addTransitiveDepsF g fuel d (d :: acc)) S' ↔
            z ∈ S' ∨ ∃ d ∈ ds, ARFrom g S' d z := by
        intro ds
        induction ds with
        | nil =>
            intro _ S' _ z
            simp
        | cons d ds ihd =>
            intro hds S' hm z
            have hdall : d ∈ allDeps g := hds d (List.mem_cons_self _ _)
            have hdsall : ∀ d' ∈ ds, d' ∈ allDeps g :=
              fun d' hd' => hds d' (List.mem_cons_of_mem _ hd')
            simp only [List.foldl_cons]
            by_cases hdS : d ∈ S'
            · rw [if_pos hdS, ihd hdsall S' hm z]
              constructor
              · rintro (h | ⟨d', hd', hA⟩)
                · exact Or.inl h
                · exact Or.inr ⟨d', List.mem_cons_of_mem _ hd', hA⟩
              · rintro (h | ⟨d', hd', hA⟩)
                · exact Or.inl h
                · rcases List.mem_cons.mp hd' with rfl | hd''
                  · exact absurd hdS hA.1
                  · exact Or.inr ⟨d', hd'', hA⟩
            · rw [if_neg hdS]
              have hmd : missT g (d :: S') < missT g S' := missT_strict hdall hdS
              have hmain := ih d (d :: S') (by omega)
              have hsub1 : ∀ x ∈ S', x ∈ d :: S' :=
                fun x hx => List.mem_cons_of_mem _ hx
              have hsubS1 : ∀ x ∈ S', x ∈ addTransitiveDepsF g fuel d (d :: S') :=
                fun x hx => addTDF_mono g fuel d (d :: S') x (hsub1 x hx)
              have fact1 : ∀ z, z ∈ addTransitiveDepsF g fuel d (d :: S') ↔
                  z ∈ S' ∨ ARFrom g S' d z := by
                intro z'
                rw [hmain z']
                constructor
                · rintro (hmem | hAv)
                  · rcases List.mem_cons.mp hmem with rfl | hmem'
                    · exact Or.inr ⟨hdS, Or.inl rfl⟩
                    · exact Or.inl hmem'
                  · exact Or.inr ⟨hdS, Or.inr (avoidReach_anti hsub1 hAv)⟩
                · rintro (hmem | ⟨hd1, rfl | ⟨l, hp, hav, hz'⟩⟩)
                  · exact Or.inl (List.mem_cons_of_mem _ hmem)
                  · exact Or.inl (List.mem_cons_self _ _)
                  · by_cases hzd : z' = d
                    · exact Or.inl (by rw [hzd]; exact List.mem_cons_self _ _)
                    · obtain ⟨l', hp', hnd, hsubl⟩ :=
                        isPath_drop_start l.length l d z' (le_refl _) hp
                      refine Or.inr ⟨l', hp', ?_, ?_⟩
                      · intro w hw hwmem
                        rcases List.mem_cons.mp hwmem with rfl | hwmem'
                        · exact hnd hw
                        · exact hav w (hsubl w hw) hwmem'
                      · intro hzmem
                        rcases List.mem_cons.mp hzmem with h | h
                        · exact hzd h
                        · exact hz' h
              have hm1 : missT g (addTransitiveDepsF g fuel d (d :: S')) ≤ fuel := by
                have h1 : missT g (addTransitiveDepsF g fuel d (d :: S'))
                    ≤ missT g (d :: S') :=
                  missT_anti (addTDF_mono g fuel d (d :: S'))
                omega
              rw [ihd hdsall _ hm1 z]
              constructor
              · rintro (hz1 | ⟨d', hd', hA1⟩)
                · rcases (fact1 z).mp hz1 with h | h
                  · exact Or.inl h
                  · exact Or.inr ⟨d, List.mem_cons_self _ _, h⟩
                · refine Or.inr ⟨d', List.mem_cons_of_mem _ hd', ?_⟩
                  exact arFrom_anti hsubS1 hA1
              · rintro (hzS | ⟨d', hd', hA⟩)
                · exact Or.inl (hsubS1 z hzS)
                · rcases List.mem_cons.mp hd' with rfl | hd''
                  · exact Or.inl ((fact1 z).mpr (Or.inr hA))
                  · by_cases hz1 : z ∈ addTransitiveDepsF g fuel d (d :: S')
                    · exact Or.inl hz1
                    · refine Or.inr ⟨d', hd'', ?_⟩
                      obtain ⟨hd'S, hcase⟩ := hA
                      have hd'S1 : d' ∉ addTransitiveDepsF g fuel d (d :: S') := by
                        intro hc
                        rcases (fact1 d').mp hc with h | h
                        · exact hd'S h
                        · rcases hcase with rfl | ⟨l, hp, hav, hzS'⟩
                          · exact hz1 ((fact1 z).mpr (Or.inr h))
                          · have := arFrom_compose h hp hav hzS'
                            exact hz1 ((fact1 z).mpr (Or.inr this))
                      rcases hcase with rfl | ⟨l, hp, hav, hzS'⟩
                      · exact ⟨hd'S1, Or.inl rfl⟩
                      · refine ⟨hd'S1, Or.inr ⟨l, hp, ?_, hz1⟩⟩
                        intro w hw hwmem
                        rcases (fact1 w).mp hwmem with h | h
                        · exact hav w hw h
                        · obtain ⟨l₁, l₂, rfl⟩ := List.append_of_mem hw
                          have hp2 : isPath g w l₂ z = true :=
                            isPath_suffix l₁ d' w z l₂ hp
                          have hav2 : ∀ x ∈ l₂, x ∉ S' := by
                            intro x hx
                            exact hav x (by
                              simp only [List.mem_append, List.mem_cons]
                              exact Or.inr (Or.inr hx))
                          have := arFrom_compose h hp2 hav2 hzS'
                          exact hz1 ((fact1 z).mpr (Or.inr this))
      have hmS : missT g S ≤ fuel := by omega
      have happ := inner (depsOf g s) (depsOf_subset_allDeps g s) S hmS z
      show z ∈ (depsOf g s).foldl _ S ↔ _
      rw [happ]
      constructor
      · rintro (h | ⟨d, hd, hdS, rfl | ⟨l, hp, hav, hz⟩⟩)
        · exact Or.inl h
        · exact Or.inr ⟨[], by simp [isPath, edgeB, hd], by simp, hdS⟩
        · refine Or.inr ⟨d :: l, ?_, ?_, hz⟩
          · simp only [isPath, Bool.and_eq_true, edgeB, decide_eq_true_eq]
            exact ⟨hd, hp⟩
          · intro w hw
            rcases List.mem_cons.mp hw with rfl | hw'
            · exact hdS
            · exact hav w hw'
      · rintro (h | ⟨l, hp, hav, hz⟩)
        · exact Or.inl h
        · cases l with
          | nil =>
              refine Or.inr ⟨z, ?_, hz, Or.inl rfl⟩
              simpa [isPath, edgeB] using hp
          | cons w ws =>
              simp only [isPath, Bool.and_eq_true, edgeB,
                decide_eq_true_eq] at hp
              have hwS : w ∉ S := hav w (List.mem_cons_self _ _)
              refine Or.inr ⟨w, hp.1, hwS, Or.inr ⟨ws, hp.2, ?_, hz⟩⟩
              intro x hx
              exact hav x (List.mem_cons_of_mem _ hx)

/-- C8 (amended): the transitive-dependency closure walk terminates on
every input graph, dependency cycles included — fuel beyond the chosen
recursion bound changes nothing — and upon return the deploy-set contains
exactly its previous members plus every service reachable from the start
service by a dependency path whose nodes after the start (endpoint
included) all lie outside the previous deploy-set. -/
theorem c8_addTransitiveDeps_closure (g : Graph) (service : String)
    (set : List String) (z : String) :
    (z ∈ addTransitiveDeps g service set ↔
      z ∈ set ∨ AvoidReach g set service z) ∧
    (∀ extra, z ∈ addTransitiveDepsF g (transFuel g + extra) service set ↔
      z ∈ addTransitiveDeps g service set) := by
  have hfuel : ∀ extra, missT g set < transFuel g + extra := by
    intro extra
    have h1 : missT g set ≤ ((allDeps g).dedup).length :=
      List.length_filter_le _ _
    have h2 : ((allDeps g).dedup).length ≤ (allDeps g).length :=
      (List.dedup_sublist _).length_le
    simp only [transFuel]
    omega
  have h0 : missT g set < transFuel g := by
    have := hfuel 0
    simpa using this
  constructor
  · exact addTDF_spec g (transFuel g) service set h0 z
  · intro extra
    rw [addTDF_spec g (transFuel g + extra) service set (hfuel extra) z]
    show _ ↔ z ∈ addTransitiveDepsF g (transFuel g) service set
    rw [addTDF_spec g (transFuel g) service set h0 z]

/-- C8 counterexample: with previous deploy-set `["b"]`, the walk from
`"a"` in the graph `a -> b -> c` adds nothing at all, although `"c"` is
reachable from `"a"`; the claim "previous members plus every service
reachable from the start" is false as stated. -/
theorem c8_counterexample :
    addTransitiveDeps [("a", ["b"]), ("b", ["c"])] "a" ["b"] = ["b"] ∧
    isPath [("a", ["b"]), ("b", ["c"])] "a" ["b"] "c" = true ∧
    "c" ∉ addTransitiveDeps [("a", ["b"]), ("b", ["c"])] "a" ["b"] := by
  decide

/-! ## The deployment-subset resolver (`local-deploy.go`) -/

/-- A per-service override directive. -/
structure Override where
  serviceName : String
  branch : String
  manifestPath : String
  devLocal : String
  skip : Bool
  forceDeploy : Bool
deriving DecidableEq

/-- A service record of the master deployment order. -/
structure DeployableService where
  serviceName : String
  repository : String
  manifest : String
  devLocal : String
  dependsOn : List String
  branch : String
  originalIdx : Nat
deriving DecidableEq

/-- Go `overrideMap`: built by writing each override under its service
name in list order, so the last override for a name wins (the later write
shadows at the head of the association list). -/
def buildOverrideMap (os : List Override) : List (String × Override) :=
  os.foldl (fun m o => (o.serviceName, o) :: m) []

/-- The distinct entries of an association map, each key with its effective
(first-found) value: the key/value pairs Go's `range` iterates.  Go's
iteration order is unspecified; the properties proved below do not depend
on the order chosen here. -/
def dedupKeys {α : Type} : List (String × α) → List (String × α)
  | [] => []
  | e :: rest => e :: (dedupKeys rest).filter (fun e2 => e2.1 ≠ e.1)

/-- The override map's entries, as iterated by steps 2 and 3. -/
def overrideEntries (os : List Override) : List (String × Override) :=
  dedupKeys (buildOverrideMap os)

/-- Step 1: seed the deploy-set with the root service and its transitive
dependencies. -/
def deploySetSeed (graph : Graph) (root : String) : List String :=
  addTransitiveDeps graph root [root]

/-- Step 2: add each force-deploy override's service and its own closure. -/
def deploySetForce (graph : Graph) (os : List Override) (s0 : List String) :
    List String :=
  (overrideEntries os).foldl
    (fun s e => if e.2.forceDeploy then
        addTransitiveDeps graph e.2.serviceName (e.2.serviceName :: s)
      else s) s0

/-- Step 3: remove each skip-flagged override's service. -/
def deploySetFinal (graph : Graph) (root : String) (os : List Override) :
    List String :=
  (overrideEntries os).foldl
    (fun s e => if e.2.skip then setRemove s e.2.serviceName else s)
    (deploySetForce graph os (deploySetSeed graph root))

/-- Step 4's field-override application for one retained service. -/
def applyOverrideFields (om : List (String × Override))
    (svc : DeployableService) : DeployableService :=
  match lookupKey om svc.serviceName with
  | none => svc
  | some o =>
      { svc with
        branch := if o.branch ≠ "" then o.branch else svc.branch
        manifest := if o.manifestPath ≠ "" then o.manifestPath else svc.manifest
        devLocal := if o.devLocal ≠ "" then o.devLocal else svc.devLocal }

/-- The root-missing fatal error of step 1. -/
def unknownRootMsg (root : String) : String :=
  "❌ Root service '" ++ root ++ "' not found in master list"

/-- The dependency-resolution flow of `local-deploy.go`'s `main`: root
check, deploy-set construction (steps 1–3), then the final list filtered
out of the master order with field overrides applied (step 4). -/
def resolve (master : List DeployableService) (graph : Graph) (root : String)
    (os : List Override) : Except String (List DeployableService) :=
  if root ∈ master.map (fun svc => svc.serviceName) then
    .ok ((master.filter
        (fun svc => decide (svc.serviceName ∈ deploySetFinal graph root os))).map
      (applyOverrideFields (buildOverrideMap os)))
  else
    .error (unknownRootMsg root)

theorem applyOverrideFields_name (om : List (String × Override))
    (svc : DeployableService) :
    (applyOverrideFields om svc).serviceName = svc.serviceName := by
  unfold applyOverrideFields
  cases lookupKey om svc.serviceName <;> rfl

/-- C4: the final plan produced by `resolve` is a subsequence of the master
deployment order: every service of the final plan appears in the master
plan, and any two retained services keep their master relative order. -/
theorem c4_resolve_sublist (master : List DeployableService) (graph : Graph)
    (root : String) (os : List Override) (final : List DeployableService)
    (h : resolve master graph root os = .ok final) :
    (final.map (fun s => s.serviceName)).Sublist
      (master.map (fun s => s.serviceName)) ∧
    ∀ s ∈ final, s.serviceName ∈ master.map (fun s' => s'.serviceName) := by
  unfold resolve at h
  by_cases hroot : root ∈ master.map (fun svc => svc.serviceName)
  · rw [if_pos hroot] at h
    have hfinal : final = (master.filter
        (fun svc => decide (svc.serviceName ∈ deploySetFinal graph root os))).map
      (applyOverrideFields (buildOverrideMap os)) := by
      cases h; rfl
    subst hfinal
    constructor
    · rw [List.map_map]
      have hcomp : ((fun s : DeployableService => s.serviceName) ∘
          applyOverrideFields (buildOverrideMap os))
          = fun s : DeployableService => s.serviceName := by
        funext svc
        exact applyOverrideFields_name _ svc
      rw [hcomp]
      exact List.Sublist.map _ (List.filter_sublist master)
    · intro s hs
      rw [List.mem_map] at hs
      obtain ⟨svc, hsvc, rfl⟩ := hs
      rw [applyOverrideFields_name]
      rw [List.mem_map]
      exact ⟨svc, List.mem_of_mem_filter hsvc, rfl⟩
  · rw [if_neg hroot] at h
    exact absurd h (by simp)

theorem c4_witness :
    (resolve [⟨"A", "r", "m", "d", [], "b", 0⟩] [] "A" []
      = .ok [⟨"A", "r", "m", "d", [], "b", 0⟩]) ∧
    (((([⟨"A", "r", "m", "d", [], "b", 0⟩] : List DeployableService).map
        (fun s => s.serviceName))).Sublist
      (([⟨"A", "r", "m", "d", [], "b", 0⟩] : List DeployableService).map
        (fun s => s.serviceName)) ∧
    ∀ s ∈ ([⟨"A", "r", "m", "d", [], "b", 0⟩] : List DeployableService),
      s.serviceName ∈ ([⟨"A", "r", "m", "d", [], "b", 0⟩] :
        List DeployableService).map (fun s' => s'.serviceName)) :=
  ⟨rfl, c4_resolve_sublist [⟨"A", "r", "m", "d", [], "b", 0⟩] [] "A" []
    [⟨"A", "r", "m", "d", [], "b", 0⟩] rfl⟩

/-- C5 (amended): for every override flagged skip, `resolve` removes
exactly that one service from the deploy-set — a name survives step 3
exactly when it survived steps 1–2 and carries no skip flag, so dependents
of a skipped service remain — and no `ConsistencyWarning` is surfaced: the
only error `resolve` ever returns is the unknown-root failure, so a
retained service still listing a skipped dependency passes silently. -/
theorem c5_skip_exact_no_warning (graph : Graph) (root : String)
    (os : List Override) (z : String) :
    (z ∈ deploySetFinal graph root os ↔
      z ∈ deploySetForce graph os (deploySetSeed graph root) ∧
        ¬∃ e ∈ overrideEntries os, e.2.skip = true ∧ e.2.serviceName = z) ∧
    (∀ (master : List DeployableService) (e : String),
      resolve master graph root os = .error e → e = unknownRootMsg root) := by
  constructor
  · have key : ∀ (entries : List (String × Override)) (S : List String),
        z ∈ entries.foldl
            (fun s e => if e.2.skip then setRemove s e.2.serviceName else s) S ↔
          z ∈ S ∧ ¬∃ e ∈ entries, e.2.skip = true ∧ e.2.serviceName = z := by
      intro entries
      induction entries with
      | nil => intro S; simp
      | cons e rest ih =>
          intro S
          simp only [List.foldl_cons]
          rw [ih]
          by_cases hskip : e.2.skip
          · rw [if_pos hskip]
            constructor
            · rintro ⟨hz, hno⟩
              rw [mem_setRemove] at hz
              refine ⟨hz.1, ?_⟩
              rintro ⟨e', he', hsk, hname⟩
              rcases List.mem_cons.mp he' with rfl | he''
              · exact hz.2 (by rw [← hname])
              · exact hno ⟨e', he'', hsk, hname⟩
            · rintro ⟨hz, hno⟩
              rw [mem_setRemove]
              refine ⟨⟨hz, ?_⟩, ?_⟩
              · intro hc
                exact hno ⟨e, List.mem_cons_self _ _, hskip, hc.symm⟩
              · rintro ⟨e', he', hsk, hname⟩
                exact hno ⟨e', List.mem_cons_of_mem _ he', hsk, hname⟩
          · rw [if_neg hskip]
            constructor
            · rintro ⟨hz, hno⟩
              refine ⟨hz, ?_⟩
              rintro ⟨e', he', hsk, hname⟩
              rcases List.mem_cons.mp he' with rfl | he''
              · exact hskip (by rw [hsk])
              · exact hno ⟨e', he'', hsk, hname⟩
            · rintro ⟨hz, hno⟩
              refine ⟨hz, ?_⟩
              rintro ⟨e', he', hsk, hname⟩
              exact hno ⟨e', List.mem_cons_of_mem _ he', hsk, hname⟩
    exact key (overrideEntries os) _
  · intro master e h
    unfold resolve at h
    by_cases hroot : root ∈ master.map (fun svc => svc.serviceName)
    · rw [if_pos hroot] at h
      exact absurd h (by simp)
    · rw [if_neg hroot] at h
      have : Except.error (unknownRootMsg root)
          = (Except.error e : Except String (List DeployableService)) := h
      cases this; rfl

theorem c5_witness :
    ("B" ∈ deploySetFinal [("A", ["B"]), ("B", ["C"]), ("C", [])] "A"
        [⟨"B", "", "", "", true, false⟩] ↔
      "B" ∈ deploySetForce [("A", ["B"]), ("B", ["C"]), ("C", [])]
          [⟨"B", "", "", "", true, false⟩]
          (deploySetSeed [("A", ["B"]), ("B", ["C"]), ("C", [])] "A") ∧
        ¬∃ e ∈ overrideEntries [⟨"B", "", "", "", true, false⟩],
          e.2.skip = true ∧ e.2.serviceName = "B") ∧
    (∀ (master : List DeployableService) (e : String),
      resolve master [("A", ["B"]), ("B", ["C"]), ("C", [])] "A"
          [⟨"B", "", "", "", true, false⟩] = .error e →
        e = unknownRootMsg "A") :=
  c5_skip_exact_no_warning [("A", ["B"]), ("B", ["C"]), ("C", [])] "A"
    [⟨"B", "", "", "", true, false⟩] "B"

/-- C5 counterexample: with master order `[C, B, A]`, graph
`A -> B -> C` and the single override skipping `B`, `resolve` silently
succeeds with plan `[C, A]` although the retained `A` still lists the
skipped `B` among its dependencies — no `ConsistencyWarning` is surfaced,
refuting the claim. -/
theorem c5_counterexample :
    resolve
        [⟨"C", "", "", "", [], "", 0⟩, ⟨"B", "", "", "", ["C"], "", 0⟩,
          ⟨"A", "", "", "", ["B"], "", 0⟩]
        [("A", ["B"]), ("B", ["C"]), ("C", [])] "A"
        [⟨"B", "", "", "", true, false⟩]
      = .ok [⟨"C", "", "", "", [], "", 0⟩, ⟨"A", "", "", "", ["B"], "", 0⟩] ∧
    (∃ s ∈ [⟨"C", "", "", "", [], "", 0⟩,
        (⟨"A", "", "", "", ["B"], "", 0⟩ : DeployableService)],
      "B" ∈ s.dependsOn) ∧
    (∀ s ∈ [⟨"C", "", "", "", [], "", 0⟩,
        (⟨"A", "", "", "", ["B"], "", 0⟩ : DeployableService)],
      s.serviceName ≠ "B") :=
  ⟨rfl, by decide, by decide⟩

/-- From the claim's wording: the effective branch of a retained service —
the override's branch exactly when an override directive exists and its
branch field is non-empty, the master value otherwise. -/
def specEffectiveBranch (om : List (String × Override))
    (svc : DeployableService) : String :=
  match lookupKey om svc.serviceName with
  | some o => if o.branch = "" then svc.branch else o.branch
  | none => svc.branch

/-- From the claim's wording: the effective manifest path. -/
def specEffectiveManifest (om : List (String × Override))
    (svc : DeployableService) : String :=
  match lookupKey om svc.serviceName with
  | some o => if o.manifestPath = "" then svc.manifest else o.manifestPath
  | none => svc.manifest

/-- From the claim's wording: the effective devLocal path. -/
def specEffectiveDevLocal (om : List (String × Override))
    (svc : DeployableService) : String :=
  match lookupKey om svc.serviceName with
  | some o => if o.devLocal = "" then svc.devLocal else o.devLocal
  | none => svc.devLocal

/-- C7: for each service retained in the final plan, `resolve` replaces the
branch, manifest-path and devLocal fields with the override values exactly
when the override field is a non-empty string; empty override fields and
services without a directive keep the master values, and the remaining
fields are passed through unchanged. -/
theorem c7_resolve_field_overrides (master : List DeployableService)
    (graph : Graph) (root : String) (os : List Override)
    (final : List DeployableService)
    (h : resolve master graph root os = .ok final) :
    ∀ s ∈ final, ∃ svc ∈ master,
      s.serviceName = svc.serviceName ∧
      s.branch = specEffectiveBranch (buildOverrideMap os) svc ∧
      s.manifest = specEffectiveManifest (buildOverrideMap os) svc ∧
      s.devLocal = specEffectiveDevLocal (buildOverrideMap os) svc ∧
      s.repository = svc.repository ∧
      s.dependsOn = svc.dependsOn := by
  unfold resolve at h
  by_cases hroot : root ∈ master.map (fun svc => svc.serviceName)
  · rw [if_pos hroot] at h
    have hfinal : final = (master.filter
        (fun svc => decide (svc.serviceName ∈ deploySetFinal graph root os))).map
      (applyOverrideFields (buildOverrideMap os)) := by
      cases h; rfl
    subst hfinal
    intro s hs
    rw [List.mem_map] at hs
    obtain ⟨svc, hsvc, rfl⟩ := hs
    refine ⟨svc, List.mem_of_mem_filter hsvc, applyOverrideFields_name _ svc,
      ?_, ?_, ?_, ?_, ?_⟩ <;>
      · simp only [applyOverrideFields, specEffectiveBranch,
          specEffectiveManifest, specEffectiveDevLocal]
        cases lookupKey (buildOverrideMap os) svc.serviceName with
        | none => rfl
        | some o => simp [ite_not]
  · rw [if_neg hroot] at h
    exact absurd h (by simp)

theorem c7_witness :
    (resolve [⟨"A", "r", "m", "d", [], "b", 0⟩] [] "A"
        [⟨"A", "b2", "", "d2", false, false⟩]
      = .ok [⟨"A", "r", "m", "d2", [], "b2", 0⟩]) ∧
    (∀ s ∈ ([⟨"A", "r", "m", "d2", [], "b2", 0⟩] : List DeployableService),
      ∃ svc ∈ ([⟨"A", "r", "m", "d", [], "b", 0⟩] : List DeployableService),
        s.serviceName = svc.serviceName ∧
        s.branch = specEffectiveBranch
          (buildOverrideMap [⟨"A", "b2", "", "d2", false, false⟩]) svc ∧
        s.manifest = specEffectiveManifest
          (buildOverrideMap [⟨"A", "b2", "", "d2", false, false⟩]) svc ∧
        s.devLocal = specEffectiveDevLocal
          (buildOverrideMap [⟨"A", "b2", "", "d2", false, false⟩]) svc ∧
        s.repository = svc.repository ∧
        s.dependsOn = svc.dependsOn) :=
  ⟨rfl, c7_resolve_field_overrides [⟨"A", "r", "m", "d", [], "b", 0⟩] [] "A"
    [⟨"A", "b2", "", "d2", false, false⟩] [⟨"A", "r", "m", "d2", [], "b2", 0⟩]
    rfl⟩

/-! ## The cluster bucketizer (`grouped-topo-sort/deployment-order.go`) -/

/-- A record of the sorted deployment order consumed by the bucketizer. -/
structure DeployDependency where
  serviceName : String
  repository : String
  manifest : String
  devLocal : String
  dependsOn : List String
  branch : String
deriving DecidableEq

/-- Go `finalDeploymentOrder[root] = append(finalDeploymentOrder[root],
service)`: append to the bucket keyed by `root`, creating it if absent. -/
def bucketUpdate :
    List (String × List DeployDependency) → String → DeployDependency →
      List (String × List DeployDependency)
  | [], r, svc => [(r, [svc])]
  | e :: rest, r, svc =>
      if e.1 = r then (e.1, e.2 ++ [svc]) :: rest
      else e :: bucketUpdate rest r svc

/-- The grouping loop of the bucketizer: each service of the order is
appended to the bucket of `union[serviceName]`, the zero value `""` when
the service has no entry in the equivalence mapping. -/
def bucketize (union : List (String × String))
    (order : List DeployDependency) : List (String × List DeployDependency) :=
  order.foldl
    (fun m svc => bucketUpdate m ((lookupKey union svc.serviceName).getD "") svc)
    []

theorem lookupKey_bucketUpdate_self
    (m : List (String × List DeployDependency)) (r : String)
    (svc : DeployDependency) :
    lookupKey (bucketUpdate m r svc) r
      = some ((lookupKey m r).getD [] ++ [svc]) := by
  induction m with
  | nil => simp [bucketUpdate, lookupKey]
  | cons e rest ih =>
      by_cases he : e.1 = r
      · simp [bucketUpdate, lookupKey, he]
      · simp only [bucketUpdate, if_neg he, lookupKey, ih]

theorem lookupKey_bucketUpdate_other
    (m : List (String × List DeployDependency)) (r r' : String)
    (svc : DeployDependency) (hne : r' ≠ r) :
    lookupKey (bucketUpdate m r svc) r' = lookupKey m r' := by
  have hrr' : ¬(r = r') := fun hc => hne hc.symm
  induction m with
  | nil => simp [bucketUpdate, lookupKey, hrr']
  | cons e rest ih =>
      by_cases he : e.1 = r
      · have he' : ¬(e.1 = r') := by rw [he]; exact hrr'
        simp [bucketUpdate, lookupKey, he, he', hrr']
      · simp only [bucketUpdate, if_neg he, lookupKey, ih]

theorem bucketize_fold_mem (union : List (String × String)) :
    ∀ (order : List DeployDependency)
      (m : List (String × List DeployDependency)) (r : String)
      (svc : DeployDependency),
      ((∃ bucket, lookupKey m r = some bucket ∧ svc ∈ bucket) ∨
        (svc ∈ order ∧ r = (lookupKey union svc.serviceName).getD "")) →
      ∃ bucket,
        lookupKey (order.foldl (fun m svc =>
          bucketUpdate m ((lookupKey union svc.serviceName).getD "") svc) m) r
          = some bucket ∧ svc ∈ bucket := by
  intro order
  induction order with
  | nil =>
      intro m r svc h
      rcases h with h | ⟨hmem, -⟩
      · exact h
      · simp at hmem
  | cons d rest ih =>
      intro m r svc h
      simp only [List.foldl_cons]
      set rd := (lookupKey union d.serviceName).getD "" with hrd
      have hpers : ∀ bucket, lookupKey m r = some bucket → svc ∈ bucket →
          ∃ bucket', lookupKey (bucketUpdate m rd d) r = some bucket' ∧
            svc ∈ bucket' := by
        intro bucket hl hmem
        by_cases hr : r = rd
        · subst hr
          rw [lookupKey_bucketUpdate_self, hl]
          exact ⟨bucket ++ [d], rfl, List.mem_append_left _ hmem⟩
        · rw [lookupKey_bucketUpdate_other m rd r d hr]
          exact ⟨bucket, hl, hmem⟩
      rcases h with ⟨bucket, hl, hmem⟩ | ⟨hmem, hr⟩
      · obtain ⟨bucket', hl', hmem'⟩ := hpers bucket hl hmem
        exact ih _ r svc (Or.inl ⟨bucket', hl', hmem'⟩)
      · rcases List.mem_cons.mp hmem with rfl | hmem'
        · subst hr
          refine ih _ _ svc (Or.inl ?_)
          rw [lookupKey_bucketUpdate_self]
          exact ⟨(lookupKey m rd).getD [] ++ [svc], rfl,
            List.mem_append_right _ (List.mem_singleton.mpr rfl)⟩
        · exact ih _ r svc (Or.inr ⟨hmem', hr⟩)

/-- C6 (amended): the bucketizer never fails — it is a total function with
no error result — and a service of the order with no entry in the
equivalence mapping is grouped under the empty-string root, Go's zero
value for a missing map key. -/
theorem c6_missing_entry_empty_root (union : List (String × String))
    (order : List DeployDependency) (svc : DeployDependency)
    (hmem : svc ∈ order)
    (hnone : lookupKey union svc.serviceName = none) :
    ∃ bucket, lookupKey (bucketize union order) "" = some bucket ∧
      svc ∈ bucket := by
  unfold bucketize
  apply bucketize_fold_mem union order [] "" svc
  exact Or.inr ⟨hmem, by rw [hnone]; rfl⟩

theorem c6_witness :
    ((⟨"a", "", "", "", [], ""⟩ : DeployDependency)
        ∈ [(⟨"a", "", "", "", [], ""⟩ : DeployDependency)] ∧
      lookupKey ([] : List (String × String)) "a" = none) ∧
    (∃ bucket, lookupKey (bucketize [] [⟨"a", "", "", "", [], ""⟩]) ""
        = some bucket ∧ (⟨"a", "", "", "", [], ""⟩ : DeployDependency) ∈ bucket) :=
  ⟨⟨by decide, rfl⟩,
    c6_missing_entry_empty_root [] [⟨"a", "", "", "", [], ""⟩]
      ⟨"a", "", "", "", [], ""⟩ (by decide) rfl⟩

/-- C6 counterexample: with an empty equivalence mapping, the bucketizer
does not fail with an `UnknownRoot` error — it produces a grouping, filing
the unmatched service under the empty-string root. -/
theorem c6_counterexample :
    lookupKey ([] : List (String × String)) "a" = none ∧
    bucketize [] [⟨"a", "", "", "", [], ""⟩]
      = [("", [⟨"a", "", "", "", [], ""⟩])] :=
  ⟨rfl, rfl⟩

end ServiceTopo
